import Mathlib

/-!
Verification of the two generated tree-sitter grammars of this repository
(`src/tree_sitter_quickfix/src/parser.c` and `src/tree_sitter_yard/src/parser.c`)
against their natural-language specification.

The two C files contain only data: a lexer DFA (`ts_lex`) and LALR parse
tables (`ts_parse_table`, `ts_small_parse_table`, `ts_parse_actions`,
`ts_goto`-entries encoded as `STATE(..)` entries).  Those tables are
transcribed below symbol by symbol.  The driver loop that interprets the
tables (shift / reduce / shift-extra / accept, and the error-recovery and
total-`parse` wrapper) is not part of the repository's sources; it is
modelled from the specification's §4.2/§4.3 parsing strategy, following the
standard semantics of the table format (a reduce of arity `n` pops `n`
non-extra subtrees, interleaved extras are kept as children, trailing
extras are re-pushed above the reduced node; `ACCEPT_INPUT` splices
surrounding extras into the root node).

Input is modelled as a list of Unicode code points (the C lexer compares
the decoded `lookahead` code point, e.g. `9632` for `■`); `10` is `\n`,
`32` is a space.  End of input is the empty list; a `0` code point inside
the input behaves as in C (`lookahead != 0` guards).
-/

namespace Quickfix

/-- Symbols of the quickfix grammar, named as in the C `enum` and
`ts_symbol_names` of `src/tree_sitter_quickfix/src/parser.c`
(`anon_sym_` is the token `■┬`, `anon_sym_2` is `├`, `anon_sym_LF` is
`\n`, `anon_sym_3` is `└`). -/
inductive Sym where
  | ts_builtin_sym_end
  | anon_sym_
  | anon_sym_2
  | anon_sym_LF
  | anon_sym_3
  | sym_word
  | sym_source_file
  | sym_section
  | sym_header
  | sym_values
  | sym_value
  | sym_lastValue
  | aux_sym_source_file_repeat1
  | aux_sym_values_repeat1
deriving DecidableEq, Repr

/-- A token produced by the lexer: its symbol and the code points it covers. -/
structure Tok where
  sym : Sym
  txt : List Nat
deriving DecidableEq, Repr

/-- Parse trees: leaves are tokens, inner nodes carry the reduced symbol. -/
inductive Tree where
  | leaf (sym : Sym) (txt : List Nat)
  | node (sym : Sym) (children : List Tree)
deriving Repr

/-- The lexer DFA of `ts_lex` in `src/tree_sitter_quickfix/src/parser.c`,
one case per `case N:` of the C `switch`.  The pure accept states
3 (`end`), 4 (`■┬`), 5 (`├`), 6 (`\n`), 7 (`└`) have no outgoing
transitions and are inlined at their `ADVANCE` sites.  `acc` is the text
of the token under construction (reset by `SKIP`), `res` the last
`ACCEPT_TOKEN` result, returned by `END_STATE`. -/
def ts_lex_go : Nat → List Nat → List Nat → Option (Tok × List Nat) →
    Option (Tok × List Nat)
  | 0, [], _, _ => some (⟨.ts_builtin_sym_end, []⟩, [])
  | 0, c :: rest, acc, res =>
    if c = 10 then some (⟨.anon_sym_LF, acc ++ [c]⟩, rest)
    else if c = 32 then ts_lex_go 0 rest [] res
    else if c = 9492 then some (⟨.anon_sym_3, acc ++ [c]⟩, rest)
    else if c = 9500 then some (⟨.anon_sym_2, acc ++ [c]⟩, rest)
    else if c = 9632 then ts_lex_go 2 rest (acc ++ [c]) res
    else res
  | 1, [], _, res => res
  | 1, c :: rest, acc, res =>
    if c = 10 then some (⟨.anon_sym_LF, acc ++ [c]⟩, rest)
    else if c = 32 then ts_lex_go 8 rest (acc ++ [c]) res
    else if c ≠ 0 then ts_lex_go 9 rest (acc ++ [c]) res
    else res
  | 2, [], _, res => res
  | 2, c :: rest, acc, res =>
    if c = 9516 then some (⟨.anon_sym_, acc ++ [c]⟩, rest) else res
  | 8, [], acc, _ => some (⟨.sym_word, acc⟩, [])
  | 8, c :: rest, acc, _ =>
    if c = 32 then ts_lex_go 8 rest (acc ++ [c]) (some (⟨.sym_word, acc⟩, c :: rest))
    else if c ≠ 0 ∧ c ≠ 10 then
      ts_lex_go 9 rest (acc ++ [c]) (some (⟨.sym_word, acc⟩, c :: rest))
    else some (⟨.sym_word, acc⟩, c :: rest)
  | 9, [], acc, _ => some (⟨.sym_word, acc⟩, [])
  | 9, c :: rest, acc, _ =>
    if c ≠ 0 ∧ c ≠ 10 then
      ts_lex_go 9 rest (acc ++ [c]) (some (⟨.sym_word, acc⟩, c :: rest))
    else some (⟨.sym_word, acc⟩, c :: rest)
  | _, _, _, res => res
termination_by structural _ input _ _ => input

/-- Entry point of the quickfix lexer for a given lex state (0 or 1). -/
def ts_lex (state : Nat) (input : List Nat) : Option (Tok × List Nat) :=
  ts_lex_go state input [] none

/-- `ts_lex_modes` of the quickfix grammar: parse states 13, 15 and 16 lex
with DFA state 1, all others with DFA state 0. -/
def lex_modes (state : Nat) : Nat :=
  match state with
  | 13 => 1
  | 15 => 1
  | 16 => 1
  | _ => 0

end Quickfix

namespace Yard

/-- Symbols of the yard grammar, named as in the C `enum` of
`src/tree_sitter_yard/src/parser.c` (`anon_sym_LBRACK_STAR_RBRACK` is the
token `[*]`, `anon_sym_PIPE` is `|`). -/
inductive Sym where
  | ts_builtin_sym_end
  | anon_sym_LBRACK_STAR_RBRACK
  | anon_sym_LF
  | anon_sym_PIPE
  | sym_word
  | sym_source_file
  | sym_section
  | sym_header
  | sym_values
  | sym_value
  | aux_sym_source_file_repeat1
  | aux_sym_values_repeat1
deriving DecidableEq, Repr

/-- A token produced by the yard lexer. -/
structure Tok where
  sym : Sym
  txt : List Nat
deriving DecidableEq, Repr

/-- Parse trees of the yard grammar. -/
inductive Tree where
  | leaf (sym : Sym) (txt : List Nat)
  | node (sym : Sym) (children : List Tree)
deriving Repr

/-- The lexer DFA of `ts_lex` in `src/tree_sitter_yard/src/parser.c`.
Pure accept states 4 (`end`), 5 (`[*]`), 6 (`\n`), 7 (`|`) are inlined at
their `ADVANCE` sites; states 2 and 3 recognise `[` `*` `]`.  Note that
DFA state 1 has no case for `\n` or end of input: there it accepts
nothing. -/
def ts_lex_go : Nat → List Nat → List Nat → Option (Tok × List Nat) →
    Option (Tok × List Nat)
  | 0, [], _, _ => some (⟨.ts_builtin_sym_end, []⟩, [])
  | 0, c :: rest, acc, res =>
    if c = 10 then some (⟨.anon_sym_LF, acc ++ [c]⟩, rest)
    else if c = 32 then ts_lex_go 0 rest [] res
    else if c = 91 then ts_lex_go 2 rest (acc ++ [c]) res
    else if c = 124 then some (⟨.anon_sym_PIPE, acc ++ [c]⟩, rest)
    else res
  | 1, [], _, res => res
  | 1, c :: rest, acc, res =>
    if c = 32 then ts_lex_go 8 rest (acc ++ [c]) res
    else if c ≠ 0 ∧ c ≠ 10 then ts_lex_go 9 rest (acc ++ [c]) res
    else res
  | 2, [], _, res => res
  | 2, c :: rest, acc, res =>
    if c = 42 then ts_lex_go 3 rest (acc ++ [c]) res else res
  | 3, [], _, res => res
  | 3, c :: rest, acc, res =>
    if c = 93 then some (⟨.anon_sym_LBRACK_STAR_RBRACK, acc ++ [c]⟩, rest) else res
  | 8, [], acc, _ => some (⟨.sym_word, acc⟩, [])
  | 8, c :: rest, acc, _ =>
    if c = 32 then ts_lex_go 8 rest (acc ++ [c]) (some (⟨.sym_word, acc⟩, c :: rest))
    else if c ≠ 0 ∧ c ≠ 10 then
      ts_lex_go 9 rest (acc ++ [c]) (some (⟨.sym_word, acc⟩, c :: rest))
    else some (⟨.sym_word, acc⟩, c :: rest)
  | 9, [], acc, _ => some (⟨.sym_word, acc⟩, [])
  | 9, c :: rest, acc, _ =>
    if c ≠ 0 ∧ c ≠ 10 then
      ts_lex_go 9 rest (acc ++ [c]) (some (⟨.sym_word, acc⟩, c :: rest))
    else some (⟨.sym_word, acc⟩, c :: rest)
  | _, _, _, res => res
termination_by structural _ input _ _ => input

/-- Entry point of the yard lexer for a given lex state (0 or 1). -/
def ts_lex (state : Nat) (input : List Nat) : Option (Tok × List Nat) :=
  ts_lex_go state input [] none

/-- `ts_lex_modes` of the yard grammar: parse states 10 and 13 lex with
DFA state 1, all others with DFA state 0. -/
def lex_modes (state : Nat) : Nat :=
  match state with
  | 10 => 1
  | 13 => 1
  | _ => 0

end Yard

/-- Code points of a string, the input representation of both lexers. -/
def chars (s : String) : List Nat :=
  s.data.map Char.toNat

namespace Quickfix

/-- A parse action of `ts_parse_actions`: `SHIFT`, `SHIFT_EXTRA`,
`REDUCE(sym, n)`, a `REDUCE` immediately followed by `SHIFT_REPEAT`
(entries of count 2), `ACCEPT_INPUT`, or `RECOVER`. -/
inductive Action where
  | shift (s : Nat)
  | shiftExtra
  | reduce (sym : Sym) (n : Nat)
  | reduceShift (sym : Sym) (n : Nat) (s : Nat)
  | accept
  | recover
deriving DecidableEq, Repr

/-- The terminal entries of `ts_parse_table` and `ts_small_parse_table` of
`src/tree_sitter_quickfix/src/parser.c`, resolved through
`ts_parse_actions` (state 0 holds the `RECOVER()` entries of `ACTIONS(1)`;
`ACTIONS(3)` and `ACTIONS(37)` are `SHIFT_EXTRA()` for `\n`;
`ACTIONS(17)` and `ACTIONS(20)` are `REDUCE` + `SHIFT_REPEAT` pairs). -/
def parse_actions (st : Nat) (sym : Sym) : Option Action :=
  match sym with
  | .ts_builtin_sym_end =>
    match st with
    | 0 => some .recover
    | 1 => some (.reduce .sym_source_file 0)
    | 3 => some (.reduce .sym_source_file 1)
    | 5 => some (.reduce .aux_sym_source_file_repeat1 2)
    | 8 => some (.reduce .sym_section 2)
    | 9 => some (.reduce .sym_values 1)
    | 10 => some (.reduce .sym_lastValue 2)
    | 11 => some (.reduce .sym_values 2)
    | 14 => some .accept
    | _ => none
  | .anon_sym_ =>
    match st with
    | 0 => some .recover
    | 1 => some (.shift 13)
    | 3 => some (.shift 13)
    | 5 => some (.reduceShift .aux_sym_source_file_repeat1 2 13)
    | 8 => some (.reduce .sym_section 2)
    | 9 => some (.reduce .sym_values 1)
    | 10 => some (.reduce .sym_lastValue 2)
    | 11 => some (.reduce .sym_values 2)
    | _ => none
  | .anon_sym_2 =>
    match st with
    | 0 => some .recover
    | 2 => some (.shift 15)
    | 4 => some (.shift 15)
    | 6 => some (.reduceShift .aux_sym_values_repeat1 2 15)
    | 7 => some (.reduce .sym_header 2)
    | 12 => some (.reduce .sym_value 3)
    | _ => none
  | .anon_sym_LF =>
    match st with
    | 17 => some (.shift 12)
    | 0 | 1 | 2 | 3 | 4 | 5 | 6 | 7 | 8 | 9 | 10 | 11 | 12 | 13 | 14 | 15 | 16 =>
      some .shiftExtra
    | _ => none
  | .anon_sym_3 =>
    match st with
    | 0 => some .recover
    | 2 => some (.shift 16)
    | 4 => some (.shift 16)
    | 6 => some (.reduce .aux_sym_values_repeat1 2)
    | 7 => some (.reduce .sym_header 2)
    | 12 => some (.reduce .sym_value 3)
    | _ => none
  | .sym_word =>
    match st with
    | 13 => some (.shift 7)
    | 15 => some (.shift 17)
    | 16 => some (.shift 10)
    | _ => none
  | _ => none

/-- The nonterminal (`STATE(..)`) entries of the quickfix parse tables:
the goto function of the LALR automaton. -/
def goto_table (st : Nat) (sym : Sym) : Option Nat :=
  match sym with
  | .sym_source_file => match st with | 1 => some 14 | _ => none
  | .sym_section => match st with | 1 => some 3 | 3 => some 5 | 5 => some 5 | _ => none
  | .sym_header => match st with | 1 => some 2 | 3 => some 2 | 5 => some 2 | _ => none
  | .sym_values => match st with | 2 => some 8 | _ => none
  | .sym_value => match st with | 2 => some 4 | 4 => some 6 | 6 => some 6 | _ => none
  | .sym_lastValue => match st with | 2 => some 9 | 4 => some 11 | _ => none
  | .aux_sym_source_file_repeat1 =>
    match st with | 1 => some 3 | 3 => some 5 | 5 => some 5 | _ => none
  | .aux_sym_values_repeat1 =>
    match st with | 2 => some 4 | 4 => some 6 | 6 => some 6 | _ => none
  | _ => none

/-- A stack frame of the shift/reduce driver: the automaton state entered
when the subtree was pushed, the subtree, and whether it was pushed by
`SHIFT_EXTRA`. -/
structure Frame where
  state : Nat
  tree : Tree
  extra : Bool
deriving Repr

/-- State on top of the stack (the stack is head-first). -/
def topSt : List Frame → Nat
  | [] => 0
  | f :: _ => f.state

/-- Pop frames until `n` non-extra subtrees have been popped (extras popped
on the way do not count); returns the popped frames (top first) and the
remaining stack, or `none` if the stack runs out. -/
def popFrames : Nat → List Frame → Option (List Frame × List Frame)
  | 0, stk => some ([], stk)
  | _ + 1, [] => none
  | n + 1, f :: stk =>
    match popFrames (if f.extra then n + 1 else n) stk with
    | some (p, r) => some (f :: p, r)
    | none => none
termination_by structural _ stk => stk

/-- One `REDUCE(sym, n)`: pop `n` non-extra subtrees, remove the trailing
extras from the popped slice (they are re-pushed above the new node), make
the remaining popped subtrees (in document order) the children of a new
`sym` node, and push it at the goto state. -/
def reduceStep (sym : Sym) (n : Nat) (stk : List Frame) : Option (List Frame) :=
  match popFrames n stk with
  | none => none
  | some (popped, rest) =>
    match goto_table (topSt rest) sym with
    | none => none
    | some s =>
      some ((popped.takeWhile (·.extra)).map (fun f => ⟨s, f.tree, true⟩) ++
        ⟨s, Tree.node sym ((popped.dropWhile (·.extra)).reverse.map (·.tree)), false⟩ :: rest)

/-- The children of a tree rooted at `source_file`, if it is one. -/
def rootChildren : Tree → Option (List Tree)
  | Tree.node .sym_source_file ch => some ch
  | _ => none

/-- Modelled from the spec: `parse` returns the `SourceFile` root (§4.3);
on `ACCEPT_INPUT` the extras remaining on the stack around the root
subtree are spliced into the root's child list, as the runtime's accept
does. -/
def acceptTree (stk : List Frame) : Tree :=
  match (stk.dropLast).dropWhile (·.extra) with
  | [] =>
    Tree.node .sym_source_file
      (((stk.dropLast).takeWhile (·.extra)).reverse.map (·.tree))
  | f :: below =>
    match rootChildren f.tree with
    | some ch =>
      Tree.node .sym_source_file ((below.reverse.map (·.tree)) ++ ch ++
        (((stk.dropLast).takeWhile (·.extra)).reverse.map (·.tree)))
    | none =>
      Tree.node .sym_source_file (((f :: below).reverse.map (·.tree)) ++
        (((stk.dropLast).takeWhile (·.extra)).reverse.map (·.tree)))

/-- Result of feeding one token to the driver: a new stack once the token
has been shifted, the finished tree on `ACCEPT_INPUT`, or failure (no
action in the table). -/
inductive Handle where
  | cont (stk : List Frame)
  | done (t : Tree)
  | fail
deriving Repr

/-- Feed one token: perform the reduces the table demands for the current
lookahead, then shift it (or accept / fail).  `fuel` bounds the reduce
chain; `stk.length + 2` always suffices. -/
def handle : Nat → List Frame → Tok → Handle
  | 0, _, _ => .fail
  | fuel + 1, stk, tok =>
    match parse_actions (topSt stk) tok.sym with
    | none => .fail
    | some .recover => .fail
    | some (.shift s) => .cont (⟨s, .leaf tok.sym tok.txt, false⟩ :: stk)
    | some .shiftExtra => .cont (⟨topSt stk, .leaf tok.sym tok.txt, true⟩ :: stk)
    | some .accept => .done (acceptTree stk)
    | some (.reduce sym n) =>
      match reduceStep sym n stk with
      | none => .fail
      | some stk2 => handle fuel stk2 tok
    | some (.reduceShift sym n s) =>
      match reduceStep sym n stk with
      | none => .fail
      | some stk2 => .cont (⟨s, .leaf tok.sym tok.txt, false⟩ :: stk2)

/-- Result of a deterministic run of the tables: the accepted tree, or an
error together with the stack and the input remaining at the error. -/
inductive RunResult where
  | ok (t : Tree)
  | error (stk : List Frame) (rest : List Nat)
deriving Repr

/-- The initial stack: state 1 with no subtree (a placeholder root frame). -/
def stack0 : List Frame :=
  [⟨1, Tree.node .sym_source_file [], false⟩]

/-- Run the quickfix tables on the input: repeatedly lex one token in the
lex mode of the current state and feed it to `handle`.  `fuel` bounds the
number of tokens; `input.length + 2` always suffices since every token
other than `end` consumes at least one code point. -/
def run : Nat → List Frame → List Nat → RunResult
  | 0, stk, input => .error stk input
  | fuel + 1, stk, input =>
    match ts_lex (lex_modes (topSt stk)) input with
    | none => .error stk input
    | some (tok, rest) =>
      match handle (stk.length + 2) stk tok with
      | .fail => .error stk input
      | .done t => .ok t
      | .cont stk2 => run fuel stk2 rest

end Quickfix

namespace Yard

/-- A parse action of the yard `ts_parse_actions`. -/
inductive Action where
  | shift (s : Nat)
  | reduce (sym : Sym) (n : Nat)
  | reduceShift (sym : Sym) (n : Nat) (s : Nat)
  | accept
  | recover
deriving DecidableEq, Repr

/-- The terminal entries of `ts_parse_table` and `ts_small_parse_table` of
`src/tree_sitter_yard/src/parser.c`, resolved through `ts_parse_actions`
(state 0 holds the `RECOVER()` entries; `ACTIONS(15)` and `ACTIONS(20)`
are `REDUCE` + `SHIFT_REPEAT` pairs).  The yard grammar has no
`SHIFT_EXTRA` entries: `\n` is an ordinary token. -/
def parse_actions (st : Nat) (sym : Sym) : Option Action :=
  match sym with
  | .ts_builtin_sym_end =>
    match st with
    | 0 => some .recover
    | 1 => some (.reduce .sym_source_file 0)
    | 2 => some (.reduce .sym_source_file 1)
    | 3 => some (.reduce .sym_values 1)
    | 4 => some (.reduce .aux_sym_source_file_repeat1 2)
    | 5 => some (.reduce .aux_sym_values_repeat1 2)
    | 7 => some (.reduce .sym_value 2)
    | 8 => some (.reduce .sym_value 3)
    | 9 => some (.reduce .sym_section 2)
    | 11 => some .accept
    | _ => none
  | .anon_sym_LBRACK_STAR_RBRACK =>
    match st with
    | 0 => some .recover
    | 1 => some (.shift 10)
    | 2 => some (.shift 10)
    | 3 => some (.reduce .sym_values 1)
    | 4 => some (.reduceShift .aux_sym_source_file_repeat1 2 10)
    | 5 => some (.reduce .aux_sym_values_repeat1 2)
    | 7 => some (.reduce .sym_value 2)
    | 8 => some (.reduce .sym_value 3)
    | 9 => some (.reduce .sym_section 2)
    | _ => none
  | .anon_sym_LF =>
    match st with
    | 0 => some .recover
    | 7 => some (.shift 8)
    | 12 => some (.shift 14)
    | _ => none
  | .anon_sym_PIPE =>
    match st with
    | 0 => some .recover
    | 3 => some (.shift 13)
    | 5 => some (.reduceShift .aux_sym_values_repeat1 2 13)
    | 6 => some (.shift 13)
    | 7 => some (.reduce .sym_value 2)
    | 8 => some (.reduce .sym_value 3)
    | 14 => some (.reduce .sym_header 3)
    | _ => none
  | .sym_word =>
    match st with
    | 10 => some (.shift 12)
    | 13 => some (.shift 7)
    | _ => none
  | _ => none

/-- The nonterminal (`STATE(..)`) entries of the yard parse tables. -/
def goto_table (st : Nat) (sym : Sym) : Option Nat :=
  match sym with
  | .sym_source_file => match st with | 1 => some 11 | _ => none
  | .sym_section => match st with | 1 => some 2 | 2 => some 4 | 4 => some 4 | _ => none
  | .sym_header => match st with | 1 => some 6 | 2 => some 6 | 4 => some 6 | _ => none
  | .sym_values => match st with | 6 => some 9 | _ => none
  | .sym_value => match st with | 3 => some 5 | 5 => some 5 | 6 => some 3 | _ => none
  | .aux_sym_source_file_repeat1 =>
    match st with | 1 => some 2 | 2 => some 4 | 4 => some 4 | _ => none
  | .aux_sym_values_repeat1 =>
    match st with | 3 => some 5 | 5 => some 5 | 6 => some 3 | _ => none
  | _ => none

/-- A stack frame of the yard driver (extras never occur in this grammar,
but the field is kept so both drivers read the same way). -/
structure Frame where
  state : Nat
  tree : Tree
  extra : Bool
deriving Repr

/-- State on top of the stack. -/
def topSt : List Frame → Nat
  | [] => 0
  | f :: _ => f.state

/-- Pop frames until `n` non-extra subtrees have been popped. -/
def popFrames : Nat → List Frame → Option (List Frame × List Frame)
  | 0, stk => some ([], stk)
  | _ + 1, [] => none
  | n + 1, f :: stk =>
    match popFrames (if f.extra then n + 1 else n) stk with
    | some (p, r) => some (f :: p, r)
    | none => none
termination_by structural _ stk => stk

/-- One `REDUCE(sym, n)` of the yard grammar. -/
def reduceStep (sym : Sym) (n : Nat) (stk : List Frame) : Option (List Frame) :=
  match popFrames n stk with
  | none => none
  | some (popped, rest) =>
    match goto_table (topSt rest) sym with
    | none => none
    | some s =>
      some ((popped.takeWhile (·.extra)).map (fun f => ⟨s, f.tree, true⟩) ++
        ⟨s, Tree.node sym ((popped.dropWhile (·.extra)).reverse.map (·.tree)), false⟩ :: rest)

/-- The children of a tree rooted at `source_file`, if it is one. -/
def rootChildren : Tree → Option (List Tree)
  | Tree.node .sym_source_file ch => some ch
  | _ => none

/-- Modelled from the spec: on `ACCEPT_INPUT` return the `SourceFile`
root, splicing any surrounding extras into its child list. -/
def acceptTree (stk : List Frame) : Tree :=
  match (stk.dropLast).dropWhile (·.extra) with
  | [] =>
    Tree.node .sym_source_file
      (((stk.dropLast).takeWhile (·.extra)).reverse.map (·.tree))
  | f :: below =>
    match rootChildren f.tree with
    | some ch =>
      Tree.node .sym_source_file ((below.reverse.map (·.tree)) ++ ch ++
        (((stk.dropLast).takeWhile (·.extra)).reverse.map (·.tree)))
    | none =>
      Tree.node .sym_source_file (((f :: below).reverse.map (·.tree)) ++
        (((stk.dropLast).takeWhile (·.extra)).reverse.map (·.tree)))

/-- Result of feeding one token to the yard driver. -/
inductive Handle where
  | cont (stk : List Frame)
  | done (t : Tree)
  | fail
deriving Repr

/-- Feed one token to the yard driver. -/
def handle : Nat → List Frame → Tok → Handle
  | 0, _, _ => .fail
  | fuel + 1, stk, tok =>
    match parse_actions (topSt stk) tok.sym with
    | none => .fail
    | some .recover => .fail
    | some (.shift s) => .cont (⟨s, .leaf tok.sym tok.txt, false⟩ :: stk)
    | some .accept => .done (acceptTree stk)
    | some (.reduce sym n) =>
      match reduceStep sym n stk with
      | none => .fail
      | some stk2 => handle fuel stk2 tok
    | some (.reduceShift sym n s) =>
      match reduceStep sym n stk with
      | none => .fail
      | some stk2 => .cont (⟨s, .leaf tok.sym tok.txt, false⟩ :: stk2)

/-- Result of a deterministic run of the yard tables. -/
inductive RunResult where
  | ok (t : Tree)
  | error (stk : List Frame) (rest : List Nat)
deriving Repr

/-- The initial stack of the yard driver. -/
def stack0 : List Frame :=
  [⟨1, Tree.node .sym_source_file [], false⟩]

/-- Run the yard tables on the input. -/
def run : Nat → List Frame → List Nat → RunResult
  | 0, stk, input => .error stk input
  | fuel + 1, stk, input =>
    match ts_lex (lex_modes (topSt stk)) input with
    | none => .error stk input
    | some (tok, rest) =>
      match handle (stk.length + 2) stk tok with
      | .fail => .error stk input
      | .done t => .ok t
      | .cont stk2 => run fuel stk2 rest

end Yard

/-- Modelled from the spec: local recovery "discards tokens up to and
including the next `Newline`" (§4.2).  Drops code points through the first
`\n`. -/
def dropThroughNewline : List Nat → List Nat
  | [] => []
  | c :: rest => if c = 10 then rest else dropThroughNewline rest

namespace Quickfix

/-- Modelled from the spec: after an error the parser "resumes parsing at
`section` level" (§4.2): drop stack frames until the top state can accept
a `section` again. -/
def popToSection : List Frame → List Frame
  | [] => stack0
  | f :: rest =>
    if (goto_table f.state .sym_section).isSome then f :: rest else popToSection rest

/-- Modelled from the spec: when input ends, "any node under construction
is closed" (§4.2): the subtrees still on the stack become the children of
the `SourceFile` root. -/
def finish (stk : List Frame) : Tree :=
  Tree.node .sym_source_file (stk.dropLast.reverse.map (·.tree))

/-- Modelled from the spec: the total `parse` of §4.3 — run the tables,
and on a malformed line discard input through the next newline and resume
at section level; when no input remains, close the tree.  The outer fuel
is only a bound on the number of recoveries (each consumes at least one
code point). -/
def parseRecover : Nat → List Frame → List Nat → Tree
  | 0, stk, _ => finish stk
  | fuel + 1, stk, input =>
    match run (input.length + 2) stk input with
    | .ok t => t
    | .error stk2 rest =>
      match rest with
      | [] => finish stk2
      | _ :: _ => parseRecover fuel (popToSection stk2) (dropThroughNewline rest)

/-- Modelled from the spec: `parse(text) -> SourceFile`, total (§4.3). -/
def parse (input : List Nat) : Tree :=
  parseRecover (input.length + 1) stack0 input

/-- `visible` of `ts_symbol_metadata`: the `end` token and the two
`aux_sym_*_repeat1` helper symbols are invisible, everything else is
visible. -/
def visible (sym : Sym) : Bool :=
  match sym with
  | .ts_builtin_sym_end => false
  | .aux_sym_source_file_repeat1 => false
  | .aux_sym_values_repeat1 => false
  | _ => true

/-- Children of the visible tree: invisible nodes are spliced into their
parent's child list, as in the library's public tree view. -/
def spliceList : List Tree → List Tree
  | [] => []
  | Tree.leaf s txt :: ts =>
    (if visible s then [Tree.leaf s txt] else []) ++ spliceList ts
  | Tree.node s ch :: ts =>
    (if visible s then [Tree.node s (spliceList ch)] else spliceList ch) ++ spliceList ts
termination_by ts => sizeOf ts

/-- The visible tree of a raw parse tree. -/
def vis (t : Tree) : Tree :=
  match t with
  | .leaf s txt => .leaf s txt
  | .node s ch => .node s (spliceList ch)

end Quickfix

namespace Yard

/-- Modelled from the spec: resume at `section` level after an error. -/
def popToSection : List Frame → List Frame
  | [] => stack0
  | f :: rest =>
    if (goto_table f.state .sym_section).isSome then f :: rest else popToSection rest

/-- Modelled from the spec: close the nodes under construction at end of
input. -/
def finish (stk : List Frame) : Tree :=
  Tree.node .sym_source_file (stk.dropLast.reverse.map (·.tree))

/-- Modelled from the spec: the total `parse` of §4.3 for the yard
grammar, with the §4.2 newline-skipping recovery. -/
def parseRecover : Nat → List Frame → List Nat → Tree
  | 0, stk, _ => finish stk
  | fuel + 1, stk, input =>
    match run (input.length + 2) stk input with
    | .ok t => t
    | .error stk2 rest =>
      match rest with
      | [] => finish stk2
      | _ :: _ => parseRecover fuel (popToSection stk2) (dropThroughNewline rest)

/-- Modelled from the spec: `parse(text) -> SourceFile`, total (§4.3). -/
def parse (input : List Nat) : Tree :=
  parseRecover (input.length + 1) stack0 input

/-- `visible` of the yard `ts_symbol_metadata`: the `end` token and the
`aux_sym_*_repeat1` helper symbols are invisible. -/
def visible (sym : Sym) : Bool :=
  match sym with
  | .ts_builtin_sym_end => false
  | .aux_sym_source_file_repeat1 => false
  | .aux_sym_values_repeat1 => false
  | _ => true

/-- Children of the visible tree: invisible nodes are spliced into their
parent's child list. -/
def spliceList : List Tree → List Tree
  | [] => []
  | Tree.leaf s txt :: ts =>
    (if visible s then [Tree.leaf s txt] else []) ++ spliceList ts
  | Tree.node s ch :: ts =>
    (if visible s then [Tree.node s (spliceList ch)] else spliceList ch) ++ spliceList ts
termination_by ts => sizeOf ts

/-- The visible tree of a raw yard parse tree. -/
def vis (t : Tree) : Tree :=
  match t with
  | .leaf s txt => .leaf s txt
  | .node s ch => .node s (spliceList ch)

end Yard

namespace Quickfix

/-- Checks `├ (\n-extra)* word \n`: the tail of a `value` node's child
list after its `├` leaf — any number of newline leaves, then the word and
the terminating newline. -/
def valueTail : List Tree → Bool
  | [Tree.leaf .sym_word _, Tree.leaf .anon_sym_LF _] => true
  | Tree.leaf .anon_sym_LF _ :: rest => valueTail rest
  | _ => false

/-- Shape of a `value` node's children: a `├` leaf, interleaved newline
extras, one word, and a terminating newline as last child. -/
def valueShape (ch : List Tree) : Bool :=
  match ch with
  | Tree.leaf .anon_sym_2 _ :: rest => valueTail rest
  | _ => false

/-- Checks `(\n-extra)* word`: the tail of a `lastValue` node's child list
after its `└` leaf — newline extras, then the word, and nothing after it. -/
def lastTail : List Tree → Bool
  | [Tree.leaf .sym_word _] => true
  | Tree.leaf .anon_sym_LF _ :: rest => lastTail rest
  | _ => false

/-- Shape of a `lastValue` node's children: a `└` leaf, interleaved
newline extras, and one word — never a terminating newline. -/
def lastShape (ch : List Tree) : Bool :=
  match ch with
  | Tree.leaf .anon_sym_3 _ :: rest => lastTail rest
  | _ => false

/-- Every `value` and every `lastValue` node anywhere in the trees has the
shape above. -/
def shapesList : List Tree → Bool
  | [] => true
  | Tree.leaf _ _ :: ts => shapesList ts
  | Tree.node s ch :: ts =>
    (if s = .sym_value then valueShape ch
     else if s = .sym_lastValue then lastShape ch
     else true) && (shapesList ch && shapesList ts)
termination_by ts => sizeOf ts

/-- Every `value` / `lastValue` node of the tree has the documented shape. -/
def shapesOK (t : Tree) : Bool :=
  shapesList [t]

/-- The terminal symbols (`TOKEN_COUNT = 6` in the C file). -/
def isTokenSym (sym : Sym) : Bool :=
  match sym with
  | .ts_builtin_sym_end => true
  | .anon_sym_ => true
  | .anon_sym_2 => true
  | .anon_sym_LF => true
  | .anon_sym_3 => true
  | .sym_word => true
  | _ => false

/-- Symbol at the root of a tree. -/
def treeSym : Tree → Sym
  | .leaf s _ => s
  | .node s _ => s

/-- A well-formed subtree on the stack: leaves carry terminal symbols,
nodes carry nonterminal symbols and satisfy the `value` / `lastValue`
shape invariant throughout. -/
def GoodTree : Tree → Prop
  | .leaf s _ => isTokenSym s = true
  | .node s ch => isTokenSym s = false ∧ shapesList ch = true ∧
      (s = .sym_value → valueShape ch = true) ∧
      (s = .sym_lastValue → lastShape ch = true)

/-- The transition relation of the quickfix automaton: a subtree labelled
`sym` pushed while `st` is on top enters the returned state.  Terminals
enter via `SHIFT` (or the `SHIFT_REPEAT` of a combined entry), nonterminals
via the goto table. -/
def edge (st : Nat) (sym : Sym) : Option Nat :=
  match parse_actions st sym with
  | some (.shift t) => some t
  | some (.reduceShift _ _ t) => some t
  | _ => goto_table st sym

/-- The invariant of reachable driver stacks: a chain of frames rooted at
the initial frame, where every non-extra frame was pushed along an `edge`
with a well-formed subtree and every extra frame is a newline pushed in a
state whose action for `\n` is `SHIFT_EXTRA` (its recorded state is the
state below it). -/
inductive Chain : List Frame → Prop where
  | base : Chain stack0
  | push {s : List Frame} {t : Tree} {st : Nat} :
      Chain s → GoodTree t → edge (topSt s) (treeSym t) = some st →
      Chain (⟨st, t, false⟩ :: s)
  | pushE {s : List Frame} {txt : List Nat} :
      Chain s → parse_actions (topSt s) .anon_sym_LF = some .shiftExtra →
      Chain (⟨topSt s, .leaf .anon_sym_LF txt, true⟩ :: s)

end Quickfix

/-! ## Claim C1: which grammar owns the glyph tokens -/

/-- C1 counterexample: the yard grammar's lexer does not recognise `├`
(9500), `└` (9492) or `■┬` (9632, 9516) — in its initial DFA state each
of them lexes to nothing — so the claim that the yard lexer recognises
all of `[*]`, `|`, `├`, `└`, `■┬` is false. -/
theorem C1_counterexample :
    Yard.ts_lex 0 [9500] = none ∧
    Yard.ts_lex 0 [9492] = none ∧
    Yard.ts_lex 0 [9632, 9516] = none ∧
    Yard.ts_lex 0 (chars "└row2|c2\n") = none :=
  ⟨rfl, rfl, rfl, rfl⟩

/-- C1 (amended): the yard grammar's lexer recognises the fixed delimiter
tokens `[*]` and `|`; the glyphs `├`, `└`, `■┬` are tokens of the
quickfix grammar, whose lexer recognises them, and there a value row
introduced by the `└` glyph produces a node of kind `lastValue`. -/
theorem C1_amended :
    Yard.ts_lex 0 (chars "[*]") = some (⟨.anon_sym_LBRACK_STAR_RBRACK, chars "[*]"⟩, []) ∧
    Yard.ts_lex 0 (chars "|x") = some (⟨.anon_sym_PIPE, chars "|"⟩, chars "x") ∧
    Quickfix.ts_lex 0 (chars "├x") = some (⟨.anon_sym_2, chars "├"⟩, chars "x") ∧
    Quickfix.ts_lex 0 (chars "└x") = some (⟨.anon_sym_3, chars "└"⟩, chars "x") ∧
    Quickfix.ts_lex 0 (chars "■┬x") = some (⟨.anon_sym_, chars "■┬"⟩, chars "x") ∧
    Quickfix.run 60 Quickfix.stack0 (chars "■┬h\n└w\n") =
      .ok (.node .sym_source_file
        [.node .sym_section
          [.node .sym_header
            [.leaf .anon_sym_ (chars "■┬"), .leaf .sym_word (chars "h")],
           .leaf .anon_sym_LF [10],
           .node .sym_values
            [.node .sym_lastValue
              [.leaf .anon_sym_3 (chars "└"), .leaf .sym_word (chars "w")]]],
         .leaf .anon_sym_LF [10]]) :=
  ⟨rfl, rfl, rfl, rfl, rfl, rfl⟩

/-! ## Claim C2: quickfix is glyph-based, not indentation-based -/

/-- C2 counterexample: in the quickfix grammar the input
`"foo\n    a\n    b\n"` fails at the very first byte — the initial lex
state accepts no word — so it does not yield a section with header `foo`
and two values. -/
theorem C2_counterexample :
    Quickfix.run 60 Quickfix.stack0 (chars "foo\n    a\n    b\n") =
      .error Quickfix.stack0 (chars "foo\n    a\n    b\n") :=
  rfl

/-- C2 (amended): in the quickfix grammar headers and values are
introduced by glyphs, not indentation: the indentation-style input is
rejected at its first byte, while the glyph analogue
`"■┬foo\n├a\n└b\n"` parses as one section with header word `foo` and
the two rows `a` and `b`. -/
theorem C2_amended :
    Quickfix.run 60 Quickfix.stack0 (chars "foo\n    a\n    b\n") =
      .error Quickfix.stack0 (chars "foo\n    a\n    b\n") ∧
    Quickfix.run 60 Quickfix.stack0 (chars "■┬foo\n├a\n└b\n") =
      .ok (.node .sym_source_file
        [.node .sym_section
          [.node .sym_header
            [.leaf .anon_sym_ (chars "■┬"), .leaf .sym_word (chars "foo")],
           .leaf .anon_sym_LF [10],
           .node .sym_values
            [.node .sym_value
              [.leaf .anon_sym_2 (chars "├"), .leaf .sym_word (chars "a"),
               .leaf .anon_sym_LF [10]],
             .node .sym_lastValue
              [.leaf .anon_sym_3 (chars "└"), .leaf .sym_word (chars "b")]]],
         .leaf .anon_sym_LF [10]]) :=
  ⟨rfl, rfl⟩

/-! ## Claim C3: the glyph scenario input -/

/-- C3 counterexample: the yard grammar rejects the input
`"■┬bar\n├row1|c1\n└row2|c2\n"` at its very first code point (its lexer
knows none of the glyphs), so it does not yield the claimed tree. -/
theorem C3_counterexample :
    Yard.run 60 Yard.stack0 (chars "■┬bar\n├row1|c1\n└row2|c2\n") =
      .error Yard.stack0 (chars "■┬bar\n├row1|c1\n└row2|c2\n") :=
  rfl

/-- C3 (amended): parsing `"■┬bar\n├row1|c1\n└row2|c2\n"` with the
quickfix grammar yields one section with header word `bar` and a values
node holding one `value` whose single word is `row1|c1` and one
`lastValue` whose single word is `row2|c2` — the `|` bytes are part of
the words, not separators. -/
theorem C3_amended :
    Quickfix.run 60 Quickfix.stack0 (chars "■┬bar\n├row1|c1\n└row2|c2\n") =
      .ok (.node .sym_source_file
        [.node .sym_section
          [.node .sym_header
            [.leaf .anon_sym_ (chars "■┬"), .leaf .sym_word (chars "bar")],
           .leaf .anon_sym_LF [10],
           .node .sym_values
            [.node .sym_value
              [.leaf .anon_sym_2 (chars "├"), .leaf .sym_word (chars "row1|c1"),
               .leaf .anon_sym_LF [10]],
             .node .sym_lastValue
              [.leaf .anon_sym_3 (chars "└"), .leaf .sym_word (chars "row2|c2")]]],
         .leaf .anon_sym_LF [10]]) :=
  rfl

/-! ## Claim C5: the values block is not optional -/

/-- C5 counterexample: in both grammars a single well-formed header line
with no value rows is rejected — the parse tables have no
`section := header` reduction, so after the header the driver errors at
end of input instead of producing a section with only a header child. -/
theorem C5_counterexample :
    Quickfix.run 60 Quickfix.stack0 (chars "■┬foo\n") =
      .error
        [⟨7, .leaf .anon_sym_LF [10], true⟩,
         ⟨7, .leaf .sym_word (chars "foo"), false⟩,
         ⟨13, .leaf .anon_sym_ (chars "■┬"), false⟩,
         ⟨1, .node .sym_source_file [], false⟩] [] ∧
    Yard.run 60 Yard.stack0 (chars "[*]foo\n") =
      .error
        [⟨14, .leaf .anon_sym_LF [10], false⟩,
         ⟨12, .leaf .sym_word (chars "foo"), false⟩,
         ⟨10, .leaf .anon_sym_LBRACK_STAR_RBRACK (chars "[*]"), false⟩,
         ⟨1, .node .sym_source_file [], false⟩] [] :=
  ⟨rfl, rfl⟩

/-- C5 (amended): in both grammars the values block of a section is
mandatory as encoded: a header line alone is not accepted as written,
while the same header followed by one value row parses as a source_file
with one section holding the header and a values node. -/
theorem C5_amended :
    Quickfix.run 60 Quickfix.stack0 (chars "■┬foo\n") =
      .error
        [⟨7, .leaf .anon_sym_LF [10], true⟩,
         ⟨7, .leaf .sym_word (chars "foo"), false⟩,
         ⟨13, .leaf .anon_sym_ (chars "■┬"), false⟩,
         ⟨1, .node .sym_source_file [], false⟩] [] ∧
    Yard.run 60 Yard.stack0 (chars "[*]foo\n") =
      .error
        [⟨14, .leaf .anon_sym_LF [10], false⟩,
         ⟨12, .leaf .sym_word (chars "foo"), false⟩,
         ⟨10, .leaf .anon_sym_LBRACK_STAR_RBRACK (chars "[*]"), false⟩,
         ⟨1, .node .sym_source_file [], false⟩] [] ∧
    Quickfix.run 60 Quickfix.stack0 (chars "■┬f\n└a\n") =
      .ok (.node .sym_source_file
        [.node .sym_section
          [.node .sym_header
            [.leaf .anon_sym_ (chars "■┬"), .leaf .sym_word (chars "f")],
           .leaf .anon_sym_LF [10],
           .node .sym_values
            [.node .sym_lastValue
              [.leaf .anon_sym_3 (chars "└"), .leaf .sym_word (chars "a")]]],
         .leaf .anon_sym_LF [10]]) ∧
    Yard.run 60 Yard.stack0 (chars "[*]f\n|a\n") =
      .ok (.node .sym_source_file
        [.node .sym_section
          [.node .sym_header
            [.leaf .anon_sym_LBRACK_STAR_RBRACK (chars "[*]"),
             .leaf .sym_word (chars "f"), .leaf .anon_sym_LF [10]],
           .node .sym_values
            [.node .sym_value
              [.leaf .anon_sym_PIPE (chars "|"), .leaf .sym_word (chars "a"),
               .leaf .anon_sym_LF [10]]]]]) :=
  ⟨rfl, rfl, rfl, rfl⟩

/-! ## Claim C6: where a newline yields a Newline token -/

/-- C6 counterexample: in the yard grammar's lexer state 1 (entered when a
word is expected, parse states 10 and 13), a `\n` as the next code point
yields no token at all, so the claim that every lexer state turns `\n`
into a Newline token is false. -/
theorem C6_counterexample :
    Yard.ts_lex 1 [10] = none :=
  rfl

/-- C6 (amended): a leading `\n` yields the Newline token in both
grammars' lexer state 0 and in the quickfix grammar's lexer state 1, but
in the yard grammar's lexer state 1 it yields no token. -/
theorem C6_amended :
    ∀ rest : List Nat,
      Quickfix.ts_lex 0 (10 :: rest) = some (⟨.anon_sym_LF, [10]⟩, rest) ∧
      Quickfix.ts_lex 1 (10 :: rest) = some (⟨.anon_sym_LF, [10]⟩, rest) ∧
      Yard.ts_lex 0 (10 :: rest) = some (⟨.anon_sym_LF, [10]⟩, rest) ∧
      Yard.ts_lex 1 (10 :: rest) = none :=
  fun _ => ⟨rfl, rfl, rfl, rfl⟩

/-! ## Claim C7: the root marker precedes every header -/

/-- C7 counterexample: a document whose second section's header begins
with `■┬` is accepted (the claim says it is not), and both headers
contain the `■┬` marker (the claim says headers after the first consist
of a word and newline without it). -/
theorem C7_counterexample :
    Quickfix.run 60 Quickfix.stack0 (chars "■┬a\n└x\n■┬b\n└y\n") =
      .ok (.node .sym_source_file
        [.node .aux_sym_source_file_repeat1
          [.node .sym_section
            [.node .sym_header
              [.leaf .anon_sym_ (chars "■┬"), .leaf .sym_word (chars "a")],
             .leaf .anon_sym_LF [10],
             .node .sym_values
              [.node .sym_lastValue
                [.leaf .anon_sym_3 (chars "└"), .leaf .sym_word (chars "x")]]],
           .leaf .anon_sym_LF [10],
           .node .sym_section
            [.node .sym_header
              [.leaf .anon_sym_ (chars "■┬"), .leaf .sym_word (chars "b")],
             .leaf .anon_sym_LF [10],
             .node .sym_values
              [.node .sym_lastValue
                [.leaf .anon_sym_3 (chars "└"), .leaf .sym_word (chars "y")]]]],
         .leaf .anon_sym_LF [10]]) :=
  rfl

/-- C7 (amended): the root marker `■┬` precedes every header, not only
the first: a two-section document with `■┬` before both headers is
accepted (each header node holding the marker and the word), while a
second header written as a bare word without the marker is rejected as
written. -/
theorem C7_amended :
    (match Quickfix.run 60 Quickfix.stack0 (chars "■┬a\n└x\n■┬b\n└y\n") with
      | .ok t => some (Quickfix.vis t)
      | _ => none) =
      some (.node .sym_source_file
        [.node .sym_section
          [.node .sym_header
            [.leaf .anon_sym_ (chars "■┬"), .leaf .sym_word (chars "a")],
           .leaf .anon_sym_LF [10],
           .node .sym_values
            [.node .sym_lastValue
              [.leaf .anon_sym_3 (chars "└"), .leaf .sym_word (chars "x")]]],
         .leaf .anon_sym_LF [10],
         .node .sym_section
          [.node .sym_header
            [.leaf .anon_sym_ (chars "■┬"), .leaf .sym_word (chars "b")],
           .leaf .anon_sym_LF [10],
           .node .sym_values
            [.node .sym_lastValue
              [.leaf .anon_sym_3 (chars "└"), .leaf .sym_word (chars "y")]]],
         .leaf .anon_sym_LF [10]]) ∧
    Quickfix.run 60 Quickfix.stack0 (chars "■┬a\n└x\nb\n") =
      .error
        [⟨10, .leaf .anon_sym_LF [10], true⟩,
         ⟨10, .leaf .sym_word (chars "x"), false⟩,
         ⟨16, .leaf .anon_sym_3 (chars "└"), false⟩,
         ⟨2, .leaf .anon_sym_LF [10], true⟩,
         ⟨2, .node .sym_header
            [.leaf .anon_sym_ (chars "■┬"), .leaf .sym_word (chars "a")], false⟩,
         ⟨1, .node .sym_source_file [], false⟩]
        (chars "b\n") :=
  ⟨by
    rw [show Quickfix.run 60 Quickfix.stack0 (chars "■┬a\n└x\n■┬b\n└y\n") =
      .ok (.node .sym_source_file
        [.node .aux_sym_source_file_repeat1
          [.node .sym_section
            [.node .sym_header
              [.leaf .anon_sym_ (chars "■┬"), .leaf .sym_word (chars "a")],
             .leaf .anon_sym_LF [10],
             .node .sym_values
              [.node .sym_lastValue
                [.leaf .anon_sym_3 (chars "└"), .leaf .sym_word (chars "x")]]],
           .leaf .anon_sym_LF [10],
           .node .sym_section
            [.node .sym_header
              [.leaf .anon_sym_ (chars "■┬"), .leaf .sym_word (chars "b")],
             .leaf .anon_sym_LF [10],
             .node .sym_values
              [.node .sym_lastValue
                [.leaf .anon_sym_3 (chars "└"), .leaf .sym_word (chars "y")]]]],
         .leaf .anon_sym_LF [10]]) from rfl]
    simp [Quickfix.vis, Quickfix.spliceList, Quickfix.visible, chars],
   rfl⟩

/-! ## Claim C9: pipes inside a yard row -/

/-- C9 counterexample: the single line `|a|b` under a header parses as
ONE value node whose word is `a|b` — the second `|` is lexed into the
word — not as two sibling value nodes. -/
theorem C9_counterexample :
    Yard.run 60 Yard.stack0 (chars "[*]h\n|a|b") =
      .ok (.node .sym_source_file
        [.node .sym_section
          [.node .sym_header
            [.leaf .anon_sym_LBRACK_STAR_RBRACK (chars "[*]"),
             .leaf .sym_word (chars "h"), .leaf .anon_sym_LF [10]],
           .node .sym_values
            [.node .sym_value
              [.leaf .anon_sym_PIPE (chars "|"),
               .leaf .sym_word (chars "a|b")]]]]) :=
  rfl

/-- C9 (amended): in the yard grammar a value node consists of one `|`
token and one word (with an optional trailing newline), but a `|` after
the start of a row is consumed into the word: `"|a|b"` under a header
parses as one value node with word `a|b`, and two sibling value nodes
require a newline between the rows, as in `"|a\n|b\n"`. -/
theorem C9_amended :
    Yard.run 60 Yard.stack0 (chars "[*]h\n|a|b") =
      .ok (.node .sym_source_file
        [.node .sym_section
          [.node .sym_header
            [.leaf .anon_sym_LBRACK_STAR_RBRACK (chars "[*]"),
             .leaf .sym_word (chars "h"), .leaf .anon_sym_LF [10]],
           .node .sym_values
            [.node .sym_value
              [.leaf .anon_sym_PIPE (chars "|"),
               .leaf .sym_word (chars "a|b")]]]]) ∧
    (match Yard.run 60 Yard.stack0 (chars "[*]h\n|a\n|b\n") with
      | .ok t => some (Yard.vis t)
      | _ => none) =
      some (.node .sym_source_file
        [.node .sym_section
          [.node .sym_header
            [.leaf .anon_sym_LBRACK_STAR_RBRACK (chars "[*]"),
             .leaf .sym_word (chars "h"), .leaf .anon_sym_LF [10]],
           .node .sym_values
            [.node .sym_value
              [.leaf .anon_sym_PIPE (chars "|"), .leaf .sym_word (chars "a"),
               .leaf .anon_sym_LF [10]],
             .node .sym_value
              [.leaf .anon_sym_PIPE (chars "|"), .leaf .sym_word (chars "b"),
               .leaf .anon_sym_LF [10]]]]]) :=
  ⟨rfl, by
    rw [show Yard.run 60 Yard.stack0 (chars "[*]h\n|a\n|b\n") =
      .ok (.node .sym_source_file
        [.node .sym_section
          [.node .sym_header
            [.leaf .anon_sym_LBRACK_STAR_RBRACK (chars "[*]"),
             .leaf .sym_word (chars "h"), .leaf .anon_sym_LF [10]],
           .node .sym_values
            [.node .aux_sym_values_repeat1
              [.node .sym_value
                [.leaf .anon_sym_PIPE (chars "|"), .leaf .sym_word (chars "a"),
                 .leaf .anon_sym_LF [10]],
               .node .sym_value
                [.leaf .anon_sym_PIPE (chars "|"), .leaf .sym_word (chars "b"),
                 .leaf .anon_sym_LF [10]]]]]]) from rfl]
    simp [Yard.vis, Yard.spliceList, Yard.visible, chars]⟩

/-! ## Claim C10: children of value and lastValue nodes -/

/-- C10 counterexample: a `value` node with FOUR children exists — a
blank line after the `├` glyph is shifted as a newline extra into the
node — so the claim that every value node has exactly three children is
false (the `lastValue` of the same parse has its documented two). -/
theorem C10_counterexample :
    Quickfix.run 60 Quickfix.stack0 (chars "■┬h\n├\nv\n└x\n") =
      .ok (.node .sym_source_file
        [.node .sym_section
          [.node .sym_header
            [.leaf .anon_sym_ (chars "■┬"), .leaf .sym_word (chars "h")],
           .leaf .anon_sym_LF [10],
           .node .sym_values
            [.node .sym_value
              [.leaf .anon_sym_2 (chars "├"), .leaf .anon_sym_LF [10],
               .leaf .sym_word (chars "v"), .leaf .anon_sym_LF [10]],
             .node .sym_lastValue
              [.leaf .anon_sym_3 (chars "└"), .leaf .sym_word (chars "x")]]],
         .leaf .anon_sym_LF [10]]) :=
  rfl

/-! ## Totality of the modelled parse (claims C4 and C8) -/

theorem quickfix_acceptTree_sf (stk : List Quickfix.Frame) :
    ∃ cs, Quickfix.acceptTree stk = Quickfix.Tree.node .sym_source_file cs := by
  unfold Quickfix.acceptTree
  split
  · exact ⟨_, rfl⟩
  · split <;> exact ⟨_, rfl⟩

theorem quickfix_handle_done_sf :
    ∀ fuel stk tok t, Quickfix.handle fuel stk tok = .done t →
      ∃ cs, t = Quickfix.Tree.node .sym_source_file cs := by
  intro fuel
  induction fuel with
  | zero =>
    intro stk tok t h
    exact absurd h (by simp [Quickfix.handle])
  | succ n ih =>
    intro stk tok t h
    unfold Quickfix.handle at h
    split at h <;> try exact Quickfix.Handle.noConfusion h
    · cases h
      exact quickfix_acceptTree_sf stk
    · split at h
      · exact Quickfix.Handle.noConfusion h
      · exact ih _ _ _ h
    · split at h
      · exact Quickfix.Handle.noConfusion h
      · exact Quickfix.Handle.noConfusion h

theorem quickfix_run_ok_sf :
    ∀ fuel stk input t, Quickfix.run fuel stk input = .ok t →
      ∃ cs, t = Quickfix.Tree.node .sym_source_file cs := by
  intro fuel
  induction fuel with
  | zero =>
    intro stk input t h
    exact Quickfix.RunResult.noConfusion h
  | succ n ih =>
    intro stk input t h
    unfold Quickfix.run at h
    split at h
    · exact Quickfix.RunResult.noConfusion h
    · split at h
      · exact Quickfix.RunResult.noConfusion h
      · cases h
        exact quickfix_handle_done_sf _ _ _ _ (by assumption)
      · exact ih _ _ _ h

theorem quickfix_parseRecover_sf :
    ∀ fuel stk input, ∃ cs,
      Quickfix.parseRecover fuel stk input = Quickfix.Tree.node .sym_source_file cs := by
  intro fuel
  induction fuel with
  | zero => exact fun stk input => ⟨_, rfl⟩
  | succ n ih =>
    intro stk input
    unfold Quickfix.parseRecover
    split
    · exact quickfix_run_ok_sf _ _ _ _ (by assumption)
    · split
      · exact ⟨_, rfl⟩
      · exact ih _ _

theorem yard_acceptTree_sf (stk : List Yard.Frame) :
    ∃ cs, Yard.acceptTree stk = Yard.Tree.node .sym_source_file cs := by
  unfold Yard.acceptTree
  split
  · exact ⟨_, rfl⟩
  · split <;> exact ⟨_, rfl⟩

theorem yard_handle_done_sf :
    ∀ fuel stk tok t, Yard.handle fuel stk tok = .done t →
      ∃ cs, t = Yard.Tree.node .sym_source_file cs := by
  intro fuel
  induction fuel with
  | zero =>
    intro stk tok t h
    exact absurd h (by simp [Yard.handle])
  | succ n ih =>
    intro stk tok t h
    unfold Yard.handle at h
    split at h <;> try exact Yard.Handle.noConfusion h
    · cases h
      exact yard_acceptTree_sf stk
    · split at h
      · exact Yard.Handle.noConfusion h
      · exact ih _ _ _ h
    · split at h
      · exact Yard.Handle.noConfusion h
      · exact Yard.Handle.noConfusion h

theorem yard_run_ok_sf :
    ∀ fuel stk input t, Yard.run fuel stk input = .ok t →
      ∃ cs, t = Yard.Tree.node .sym_source_file cs := by
  intro fuel
  induction fuel with
  | zero =>
    intro stk input t h
    exact Yard.RunResult.noConfusion h
  | succ n ih =>
    intro stk input t h
    unfold Yard.run at h
    split at h
    · exact Yard.RunResult.noConfusion h
    · split at h
      · exact Yard.RunResult.noConfusion h
      · cases h
        exact yard_handle_done_sf _ _ _ _ (by assumption)
      · exact ih _ _ _ h

theorem yard_parseRecover_sf :
    ∀ fuel stk input, ∃ cs,
      Yard.parseRecover fuel stk input = Yard.Tree.node .sym_source_file cs := by
  intro fuel
  induction fuel with
  | zero => exact fun stk input => ⟨_, rfl⟩
  | succ n ih =>
    intro stk input
    unfold Yard.parseRecover
    split
    · exact yard_run_ok_sf _ _ _ _ (by assumption)
    · split
      · exact ⟨_, rfl⟩
      · exact ih _ _

/-- C4: for every input — including the empty one and a bare newline —
`parse` of each grammar returns a tree, always rooted at a `source_file`
node: the modelled parse is a total function. -/
theorem C4_parse_total :
    ∀ input : List Nat,
      (∃ cs, Quickfix.parse input = Quickfix.Tree.node .sym_source_file cs) ∧
      (∃ cs, Yard.parse input = Yard.Tree.node .sym_source_file cs) :=
  fun _ => ⟨quickfix_parseRecover_sf _ _ _, yard_parseRecover_sf _ _ _⟩

/-- C8: the recovery step always makes progress — discarding code points
up to and including the next newline strictly shortens any nonempty
remaining input, so the recovery loop of `parseRecover` terminates after
at most as many recoveries as there are code points. -/
theorem C8_recovery_progress :
    ∀ l : List Nat, l ≠ [] → (dropThroughNewline l).length < l.length := by
  intro l
  induction l with
  | nil => exact fun h => absurd rfl h
  | cons c rest ih =>
    intro _
    unfold dropThroughNewline
    split
    · exact Nat.lt_succ_self _
    · rcases rest with _ | ⟨d, rest⟩
      · exact Nat.lt_succ_self _
      · exact Nat.lt_trans (ih (by simp)) (Nat.lt_succ_self _)

/-- C8 witness: at the concrete input `[124]` (a lone `|`), the recovery
step consumes the whole input. -/
theorem C8_recovery_progress_witness :
    ([124] : List Nat) ≠ [] ∧ (dropThroughNewline [124]).length < [124].length :=
  ⟨by decide, C8_recovery_progress [124] (by decide)⟩

/-! ## Stack invariant of the quickfix driver (for claim C10) -/

theorem quickfix_shapesList_append :
    ∀ a b, Quickfix.shapesList (a ++ b) =
      (Quickfix.shapesList a && Quickfix.shapesList b) := by
  intro a
  induction a with
  | nil => intro b; simp [Quickfix.shapesList]
  | cons t ts ih =>
    intro b
    cases t with
    | leaf s txt => simp [Quickfix.shapesList, ih]
    | node s ch => simp [Quickfix.shapesList, ih, Bool.and_assoc]

theorem quickfix_shapesList_of_all :
    ∀ l, (∀ t ∈ l, Quickfix.shapesOK t = true) → Quickfix.shapesList l = true := by
  intro l
  induction l with
  | nil => intro _; simp [Quickfix.shapesList]
  | cons t ts ih =>
    intro h
    have ht := h t (by simp)
    have hts := ih fun u hu => h u (by simp [hu])
    cases t with
    | leaf s txt => simpa [Quickfix.shapesList] using hts
    | node s ch =>
      simp [Quickfix.shapesOK, Quickfix.shapesList] at ht
      simp [Quickfix.shapesList, ht.1, ht.2, hts]

theorem quickfix_shapesOK_node_children :
    ∀ s ch, Quickfix.shapesOK (Quickfix.Tree.node s ch) = true →
      Quickfix.shapesList ch = true := by
  intro s ch h
  simp [Quickfix.shapesOK, Quickfix.shapesList] at h
  exact h.2

theorem quickfix_good_shapes :
    ∀ t, Quickfix.GoodTree t → Quickfix.shapesOK t = true := by
  intro t h
  cases t with
  | leaf s txt => simp [Quickfix.shapesOK, Quickfix.shapesList]
  | node s ch =>
    obtain ⟨h1, h2, h3, h4⟩ := h
    by_cases hv : s = Quickfix.Sym.sym_value
    · simp [Quickfix.shapesOK, Quickfix.shapesList, hv, h3 hv, h2]
    · by_cases hl : s = Quickfix.Sym.sym_lastValue
      · simp [Quickfix.shapesOK, Quickfix.shapesList, hv, hl, h4 hl, h2]
      · simp [Quickfix.shapesOK, Quickfix.shapesList, hv, hl, h2]

theorem quickfix_good_token_leaf :
    ∀ t, Quickfix.GoodTree t → Quickfix.isTokenSym (Quickfix.treeSym t) = true →
      ∃ txt, t = Quickfix.Tree.leaf (Quickfix.treeSym t) txt := by
  intro t hg ht
  cases t with
  | leaf s txt => exact ⟨txt, rfl⟩
  | node s ch => exact absurd ht (by simp [Quickfix.treeSym, hg.1])

theorem quickfix_action_props :
    ∀ a b, a ≤ 17 →
      (match Quickfix.parse_actions a b with
       | some (Quickfix.Action.shift s) => s ≤ 17
       | some Quickfix.Action.shiftExtra => b = .anon_sym_LF
       | some (Quickfix.Action.reduce s2 n) =>
           Quickfix.isTokenSym s2 = false ∧
           (s2 = .sym_value → a = 12 ∧ n = 3) ∧
           (s2 = .sym_lastValue → a = 10 ∧ n = 2)
       | some (Quickfix.Action.reduceShift s2 n t) =>
           Quickfix.isTokenSym s2 = false ∧
           (s2 = .sym_value → False) ∧ (s2 = .sym_lastValue → False) ∧
           ((b = .anon_sym_ ∧ t = 13 ∧ s2 = .aux_sym_source_file_repeat1) ∨
            (b = .anon_sym_2 ∧ t = 15 ∧ s2 = .aux_sym_values_repeat1))
       | _ => True) := by
  intro a b ha
  interval_cases a <;> cases b <;> simp [Quickfix.parse_actions, Quickfix.isTokenSym]

theorem quickfix_goto_props :
    ∀ a b, a ≤ 17 →
      (match Quickfix.goto_table a b with
       | some c => c ≤ 17 ∧ Quickfix.parse_actions c .anon_sym_LF = some .shiftExtra ∧
           (b = .aux_sym_source_file_repeat1 → Quickfix.edge c .anon_sym_ = some 13) ∧
           (b = .aux_sym_values_repeat1 → Quickfix.edge c .anon_sym_2 = some 15)
       | none => True) := by
  intro a b ha
  interval_cases a <;> cases b <;>
    simp [Quickfix.goto_table, Quickfix.parse_actions, Quickfix.edge]

theorem quickfix_edge_props :
    ∀ a b, a ≤ 17 →
      (match Quickfix.edge a b with
       | some c => c ≤ 17 ∧
           (c = 12 → a = 17 ∧ b = .anon_sym_LF) ∧
           (c = 17 → a = 15 ∧ b = .sym_word) ∧
           (c = 15 → b = .anon_sym_2) ∧
           (c = 10 → a = 16 ∧ b = .sym_word) ∧
           (c = 16 → b = .anon_sym_3)
       | none => True) := by
  intro a b ha
  interval_cases a <;> cases b <;>
    simp [Quickfix.edge, Quickfix.parse_actions, Quickfix.goto_table]

theorem quickfix_actions_nonterminal :
    ∀ a s, Quickfix.isTokenSym s = false → Quickfix.parse_actions a s = none := by
  intro a s hs
  cases s <;> first | rfl | simp [Quickfix.isTokenSym] at hs

theorem quickfix_edge_nonterminal :
    ∀ a s, Quickfix.isTokenSym s = false →
      Quickfix.edge a s = Quickfix.goto_table a s := by
  intro a s hs
  simp [Quickfix.edge, quickfix_actions_nonterminal a s hs]

theorem quickfix_goto_zero :
    ∀ s, Quickfix.goto_table 0 s = none := by
  intro s
  cases s <;> rfl

theorem quickfix_chain_topSt_le :
    ∀ stk, Quickfix.Chain stk → Quickfix.topSt stk ≤ 17 := by
  intro stk h
  induction h with
  | base => simp [Quickfix.topSt, Quickfix.stack0]
  | @push s t st hc hg he ih =>
    have hp := quickfix_edge_props (Quickfix.topSt s) (Quickfix.treeSym t) ih
    rw [he] at hp
    simpa [Quickfix.topSt] using hp.1
  | @pushE s txt hc ha ih =>
    simpa [Quickfix.topSt] using ih

theorem quickfix_chain_good :
    ∀ stk, Quickfix.Chain stk → ∀ f ∈ stk,
      Quickfix.shapesOK f.tree = true ∧
      (f.extra = true → ∃ txt, f.tree = Quickfix.Tree.leaf .anon_sym_LF txt) := by
  intro stk h
  induction h with
  | base =>
    intro f hf
    simp [Quickfix.stack0] at hf
    subst hf
    exact ⟨by simp [Quickfix.shapesOK, Quickfix.shapesList], by simp⟩
  | @push s t st hc hg he ih =>
    intro f hf
    rcases List.mem_cons.mp hf with hf | hf
    · subst hf
      exact ⟨quickfix_good_shapes t hg, by simp⟩
    · exact ih f hf
  | @pushE s txt hc ha ih =>
    intro f hf
    rcases List.mem_cons.mp hf with hf | hf
    · subst hf
      exact ⟨by simp [Quickfix.shapesOK, Quickfix.shapesList], fun _ => ⟨txt, rfl⟩⟩
    · exact ih f hf

theorem quickfix_chain_tail :
    ∀ f rest, Quickfix.Chain (f :: rest) → rest = [] ∨ Quickfix.Chain rest := by
  intro f rest h
  cases h with
  | base => exact Or.inl rfl
  | push hc _ _ => exact Or.inr hc
  | pushE hc _ => exact Or.inr hc

theorem quickfix_chain_append_right :
    ∀ p r, Quickfix.Chain (p ++ r) → r = [] ∨ Quickfix.Chain r := by
  intro p
  induction p with
  | nil => exact fun r h => Or.inr h
  | cons f p ih =>
    intro r h
    rcases quickfix_chain_tail _ _ h with h1 | h1
    · exact Or.inl (List.append_eq_nil.mp h1).2
    · exact ih r h1

theorem quickfix_popFrames_append :
    ∀ stk n p r, Quickfix.popFrames n stk = some (p, r) → stk = p ++ r := by
  intro stk
  induction stk with
  | nil =>
    intro n p r h
    cases n with
    | zero =>
      simp [Quickfix.popFrames] at h
      simp [h.1, h.2]
    | succ n => simp [Quickfix.popFrames] at h
  | cons f stk ih =>
    intro n p r h
    cases n with
    | zero =>
      simp [Quickfix.popFrames] at h
      simp [h.1, h.2]
    | succ n =>
      rw [show Quickfix.popFrames (n + 1) (f :: stk) =
        (match Quickfix.popFrames (if f.extra then n + 1 else n) stk with
         | some (p, r) => some (f :: p, r)
         | none => none) from rfl] at h
      rcases hx : Quickfix.popFrames (if f.extra then n + 1 else n) stk with _ | ⟨p2, r2⟩
      · rw [hx] at h; exact Option.noConfusion h
      · rw [hx] at h
        simp at h
        rw [← h.1, ← h.2]
        simp [ih _ _ _ hx]

theorem quickfix_popFrames_extras :
    ∀ es l n, (∀ f ∈ es, f.extra = true) →
      Quickfix.popFrames (n + 1) (es ++ l) =
        (match Quickfix.popFrames (n + 1) l with
         | some (p, r) => some (es ++ p, r)
         | none => none) := by
  intro es
  induction es with
  | nil =>
    intro l n _
    rcases hx : Quickfix.popFrames (n + 1) l with _ | ⟨p, r⟩ <;> simp [hx]
  | cons e es ih =>
    intro l n h
    have he : e.extra = true := h e (by simp)
    rw [List.cons_append,
      show Quickfix.popFrames (n + 1) (e :: (es ++ l)) =
        (match Quickfix.popFrames (if e.extra then n + 1 else n) (es ++ l) with
         | some (p, r) => some (e :: p, r)
         | none => none) from rfl,
      he]
    rw [if_pos rfl, ih l n fun f hf => h f (by simp [hf])]
    rcases hx : Quickfix.popFrames (n + 1) l with _ | ⟨p, r⟩ <;> simp [hx]

theorem quickfix_popFrames_cons_false :
    ∀ f stk n, f.extra = false →
      Quickfix.popFrames (n + 1) (f :: stk) =
        (match Quickfix.popFrames n stk with
         | some (p, r) => some (f :: p, r)
         | none => none) := by
  intro f stk n hf
  rw [show Quickfix.popFrames (n + 1) (f :: stk) =
    (match Quickfix.popFrames (if f.extra then n + 1 else n) stk with
     | some (p, r) => some (f :: p, r)
     | none => none) from rfl, hf]
  rw [if_neg (by simp)]

theorem quickfix_dropWhile_extras :
    ∀ es l, (∀ f ∈ es, f.extra = true) →
      List.dropWhile (fun f : Quickfix.Frame => f.extra) (es ++ l) =
        List.dropWhile (fun f : Quickfix.Frame => f.extra) l := by
  intro es
  induction es with
  | nil => intro l _; rfl
  | cons e es ih =>
    intro l h
    have he : e.extra = true := h e (by simp)
    simp only [List.cons_append, List.dropWhile_cons, he]
    exact ih l fun f hf => h f (by simp [hf])

theorem quickfix_takeWhile_extras :
    ∀ es f0 l, (∀ f ∈ es, f.extra = true) → f0.extra = false →
      List.takeWhile (fun f : Quickfix.Frame => f.extra) (es ++ f0 :: l) = es := by
  intro es
  induction es with
  | nil => intro f0 l _ hf0; simp [List.takeWhile_cons, hf0]
  | cons e es ih =>
    intro f0 l h hf0
    have he : e.extra = true := h e (by simp)
    simp only [List.cons_append, List.takeWhile_cons, he]
    simp [ih f0 l (fun f hf => h f (by simp [hf])) hf0]

theorem quickfix_chain_split :
    ∀ stk, Quickfix.Chain stk →
      ∃ es rest, stk = es ++ rest ∧
        (∀ f ∈ es, f.extra = true ∧ f.state = Quickfix.topSt rest ∧
          ∃ txt, f.tree = Quickfix.Tree.leaf .anon_sym_LF txt) ∧
        (es ≠ [] →
          Quickfix.parse_actions (Quickfix.topSt rest) .anon_sym_LF = some .shiftExtra) ∧
        Quickfix.Chain rest ∧ Quickfix.topSt stk = Quickfix.topSt rest ∧
        (rest = Quickfix.stack0 ∨
          ∃ f rest2, rest = f :: rest2 ∧ f.extra = false ∧ Quickfix.Chain rest2 ∧
            Quickfix.GoodTree f.tree ∧
            Quickfix.edge (Quickfix.topSt rest2) (Quickfix.treeSym f.tree) = some f.state ∧
            Quickfix.topSt rest = f.state) := by
  intro stk h
  induction h with
  | base =>
    exact ⟨[], Quickfix.stack0, by simp, by simp, by simp, Quickfix.Chain.base,
      rfl, Or.inl rfl⟩
  | @push s t st hc hg he ih =>
    refine ⟨[], ⟨st, t, false⟩ :: s, by simp, by simp, by simp,
      Quickfix.Chain.push hc hg he, rfl,
      Or.inr ⟨⟨st, t, false⟩, s, rfl, rfl, hc, hg, he, rfl⟩⟩
  | @pushE s txt hc ha ih =>
    obtain ⟨es, rest, heq, hes, hcond, hrest, htop, hlast⟩ := ih
    refine ⟨⟨Quickfix.topSt s, Quickfix.Tree.leaf .anon_sym_LF txt, true⟩ :: es, rest,
      by simp [heq], ?_, ?_, hrest, ?_, hlast⟩
    · intro f hf
      rcases List.mem_cons.mp hf with hf | hf
      · subst hf
        exact ⟨rfl, by simpa using htop, ⟨txt, rfl⟩⟩
      · exact hes f hf
    · intro _
      rw [← htop]
      exact ha
    · simpa [Quickfix.topSt] using htop

theorem quickfix_chain_push_extras :
    ∀ (es l : List Quickfix.Frame) (s : Nat),
      Quickfix.Chain l → Quickfix.topSt l = s →
      Quickfix.parse_actions s .anon_sym_LF = some .shiftExtra →
      (∀ f ∈ es, ∃ txt, f.tree = Quickfix.Tree.leaf .anon_sym_LF txt) →
      Quickfix.Chain
        ((es.map fun f => (⟨s, f.tree, true⟩ : Quickfix.Frame)) ++ l) := by
  intro es
  induction es with
  | nil => intro l s hc _ _ _; simpa using hc
  | cons e es ih =>
    intro l s hc htop ha hes
    obtain ⟨txt, he⟩ := hes e (by simp)
    have hrec := ih l s hc htop ha fun f hf => hes f (by simp [hf])
    have htop2 : Quickfix.topSt
        ((es.map fun f => (⟨s, f.tree, true⟩ : Quickfix.Frame)) ++ l) = s := by
      cases es with
      | nil => simpa using htop
      | cons e2 es2 => simp [Quickfix.topSt]
    have := @Quickfix.Chain.pushE _ txt hrec (by rw [htop2]; exact ha)
    rw [htop2] at this
    simpa [he] using this

theorem quickfix_valueTail_extras :
    ∀ ns w lf, (∀ t ∈ ns, ∃ txt, t = Quickfix.Tree.leaf .anon_sym_LF txt) →
      Quickfix.valueTail
        (ns ++ [Quickfix.Tree.leaf .sym_word w, Quickfix.Tree.leaf .anon_sym_LF lf]) =
        true := by
  intro ns
  induction ns with
  | nil => intro w lf _; simp [Quickfix.valueTail]
  | cons t ns ih =>
    intro w lf h
    obtain ⟨txt, rfl⟩ := h t (by simp)
    have := ih w lf fun u hu => h u (by simp [hu])
    simpa [Quickfix.valueTail] using this

theorem quickfix_lastTail_extras :
    ∀ ns w, (∀ t ∈ ns, ∃ txt, t = Quickfix.Tree.leaf .anon_sym_LF txt) →
      Quickfix.lastTail (ns ++ [Quickfix.Tree.leaf .sym_word w]) = true := by
  intro ns
  induction ns with
  | nil => intro w _; simp [Quickfix.lastTail]
  | cons t ns ih =>
    intro w h
    obtain ⟨txt, rfl⟩ := h t (by simp)
    have := ih w fun u hu => h u (by simp [hu])
    simpa [Quickfix.lastTail] using this

theorem quickfix_pop12 :
    ∀ stk popped rest, Quickfix.Chain stk → Quickfix.topSt stk = 12 →
      Quickfix.popFrames 3 stk = some (popped, rest) →
      Quickfix.valueShape
        ((popped.dropWhile (·.extra)).reverse.map (·.tree)) = true := by
  intro stk popped rest hch htop hpop
  obtain ⟨es0, rest0, heq0, hes0, hcond0, hrest0, htop0, hlast0⟩ :=
    quickfix_chain_split stk hch
  have h12 : Quickfix.topSt rest0 = 12 := by rw [← htop0, htop]
  rcases hlast0 with h | ⟨f1, r1, heqr0, hx1, hchr1, hg1, he1, hst1⟩
  · rw [h] at h12
    simp [Quickfix.topSt, Quickfix.stack0] at h12
  have hst12 : f1.state = 12 := by rw [← hst1, h12]
  have hp1 := quickfix_edge_props (Quickfix.topSt r1) (Quickfix.treeSym f1.tree)
    (quickfix_chain_topSt_le r1 hchr1)
  rw [he1, hst12] at hp1
  obtain ⟨h17, hsym1⟩ := hp1.2.1 rfl
  obtain ⟨txt1, htr1⟩ := quickfix_good_token_leaf f1.tree hg1 (by rw [hsym1]; rfl)
  rw [hsym1] at htr1
  obtain ⟨es1, rest1, heq1, hes1, hcond1, hrest1, htop1, hlast1⟩ :=
    quickfix_chain_split r1 hchr1
  have hes1nil : es1 = [] := by
    rcases es1 with _ | ⟨e, es1⟩
    · rfl
    · have hx := hcond1 (by simp)
      rw [← htop1, h17] at hx
      simp [Quickfix.parse_actions] at hx
  rw [hes1nil] at heq1
  simp at heq1
  rcases hlast1 with h | ⟨f2, r2, heqr1, hx2, hchr2, hg2, he2, hst2⟩
  · rw [heq1, h] at h17
    simp [Quickfix.topSt, Quickfix.stack0] at h17
  rw [← heq1] at heqr1 hst2
  have hst17 : f2.state = 17 := by rw [← hst2]; exact h17
  have hp2 := quickfix_edge_props (Quickfix.topSt r2) (Quickfix.treeSym f2.tree)
    (quickfix_chain_topSt_le r2 hchr2)
  rw [he2, hst17] at hp2
  obtain ⟨h15, hsym2⟩ := hp2.2.2.1 rfl
  obtain ⟨txt2, htr2⟩ := quickfix_good_token_leaf f2.tree hg2 (by rw [hsym2]; rfl)
  rw [hsym2] at htr2
  obtain ⟨es2, rest2, heq2, hes2, hcond2, hrest2, htop2, hlast2⟩ :=
    quickfix_chain_split r2 hchr2
  rcases hlast2 with h | ⟨f3, r3, heqr2, hx3, hchr3, hg3, he3, hst3⟩
  · rw [h] at htop2
    rw [htop2] at h15
    simp [Quickfix.topSt, Quickfix.stack0] at h15
  have hst15 : f3.state = 15 := by rw [← hst3, ← htop2, h15]
  have hp3 := quickfix_edge_props (Quickfix.topSt r3) (Quickfix.treeSym f3.tree)
    (quickfix_chain_topSt_le r3 hchr3)
  rw [he3, hst15] at hp3
  have hsym3 := hp3.2.2.2.1 rfl
  obtain ⟨txt3, htr3⟩ := quickfix_good_token_leaf f3.tree hg3 (by rw [hsym3]; rfl)
  rw [hsym3] at htr3
  -- assemble the stack decomposition
  have hstk : stk = es0 ++ f1 :: f2 :: (es2 ++ f3 :: r3) := by
    rw [heq0, heqr0, heqr1, heq2, heqr2]
  -- compute popFrames 3 on the decomposed stack
  have hex0 : ∀ f ∈ es0, f.extra = true := fun f hf => (hes0 f hf).1
  have hex2 : ∀ f ∈ es2, f.extra = true := fun f hf => (hes2 f hf).1
  have hcomp : Quickfix.popFrames 3 stk =
      some (es0 ++ f1 :: f2 :: (es2 ++ [f3]), r3) := by
    rw [hstk, quickfix_popFrames_extras es0 _ 2 hex0,
      quickfix_popFrames_cons_false f1 _ 2 hx1,
      quickfix_popFrames_cons_false f2 _ 1 hx2,
      quickfix_popFrames_extras es2 _ 0 hex2,
      quickfix_popFrames_cons_false f3 _ 0 hx3]
    simp [Quickfix.popFrames]
  rw [hcomp] at hpop
  simp at hpop
  rw [← hpop.1]
  -- compute the children list
  rw [quickfix_dropWhile_extras es0 _ hex0]
  simp only [List.dropWhile_cons, hx1, hx2]
  simp only [Bool.false_eq_true, if_false, List.reverse_cons, List.reverse_append,
    List.map_append, List.map_cons, List.map_nil, htr1, htr2, htr3]
  simp only [List.append_assoc, List.cons_append, List.nil_append,
    List.singleton_append]
  simp only [Quickfix.valueShape]
  have : ∀ t ∈ List.map (fun f : Quickfix.Frame => f.tree) es2.reverse,
      ∃ txt, t = Quickfix.Tree.leaf .anon_sym_LF txt := by
    intro t ht
    obtain ⟨f, hf, hft⟩ := List.mem_map.mp ht
    obtain ⟨txt, htxt⟩ := (hes2 f (List.mem_reverse.mp hf)).2.2
    exact ⟨txt, by rw [← hft, htxt]⟩
  have hvt := quickfix_valueTail_extras
    (List.map (fun f : Quickfix.Frame => f.tree) es2.reverse) txt2 txt1 this
  simpa using hvt

theorem quickfix_pop10 :
    ∀ stk popped rest, Quickfix.Chain stk → Quickfix.topSt stk = 10 →
      Quickfix.popFrames 2 stk = some (popped, rest) →
      Quickfix.lastShape
        ((popped.dropWhile (·.extra)).reverse.map (·.tree)) = true := by
  intro stk popped rest hch htop hpop
  obtain ⟨es0, rest0, heq0, hes0, hcond0, hrest0, htop0, hlast0⟩ :=
    quickfix_chain_split stk hch
  have h10 : Quickfix.topSt rest0 = 10 := by rw [← htop0, htop]
  rcases hlast0 with h | ⟨f1, r1, heqr0, hx1, hchr1, hg1, he1, hst1⟩
  · rw [h] at h10
    simp [Quickfix.topSt, Quickfix.stack0] at h10
  have hst10 : f1.state = 10 := by rw [← hst1, h10]
  have hp1 := quickfix_edge_props (Quickfix.topSt r1) (Quickfix.treeSym f1.tree)
    (quickfix_chain_topSt_le r1 hchr1)
  rw [he1, hst10] at hp1
  obtain ⟨h16, hsym1⟩ := hp1.2.2.2.2.1 rfl
  obtain ⟨txt1, htr1⟩ := quickfix_good_token_leaf f1.tree hg1 (by rw [hsym1]; rfl)
  rw [hsym1] at htr1
  obtain ⟨es1, rest1, heq1, hes1, hcond1, hrest1, htop1, hlast1⟩ :=
    quickfix_chain_split r1 hchr1
  rcases hlast1 with h | ⟨f2, r2, heqr1, hx2, hchr2, hg2, he2, hst2⟩
  · rw [h] at htop1
    rw [htop1] at h16
    simp [Quickfix.topSt, Quickfix.stack0] at h16
  have hst16 : f2.state = 16 := by rw [← hst2, ← htop1]; exact h16
  have hp2 := quickfix_edge_props (Quickfix.topSt r2) (Quickfix.treeSym f2.tree)
    (quickfix_chain_topSt_le r2 hchr2)
  rw [he2, hst16] at hp2
  have hsym2 := hp2.2.2.2.2.2 rfl
  obtain ⟨txt2, htr2⟩ := quickfix_good_token_leaf f2.tree hg2 (by rw [hsym2]; rfl)
  rw [hsym2] at htr2
  have hstk : stk = es0 ++ f1 :: (es1 ++ f2 :: r2) := by
    rw [heq0, heqr0, heq1, heqr1]
  have hex0 : ∀ f ∈ es0, f.extra = true := fun f hf => (hes0 f hf).1
  have hex1 : ∀ f ∈ es1, f.extra = true := fun f hf => (hes1 f hf).1
  have hcomp : Quickfix.popFrames 2 stk =
      some (es0 ++ f1 :: (es1 ++ [f2]), r2) := by
    rw [hstk, quickfix_popFrames_extras es0 _ 1 hex0,
      quickfix_popFrames_cons_false f1 _ 1 hx1,
      quickfix_popFrames_extras es1 _ 0 hex1,
      quickfix_popFrames_cons_false f2 _ 0 hx2]
    simp [Quickfix.popFrames]
  rw [hcomp] at hpop
  simp at hpop
  rw [← hpop.1]
  rw [quickfix_dropWhile_extras es0 _ hex0]
  simp only [List.dropWhile_cons, hx1]
  simp only [Bool.false_eq_true, if_false, List.reverse_cons, List.reverse_append,
    List.map_append, List.map_cons, List.map_nil, htr1, htr2]
  simp only [List.append_assoc, List.cons_append, List.nil_append,
    List.singleton_append]
  simp only [Quickfix.lastShape]
  have : ∀ t ∈ List.map (fun f : Quickfix.Frame => f.tree) es1.reverse,
      ∃ txt, t = Quickfix.Tree.leaf .anon_sym_LF txt := by
    intro t ht
    obtain ⟨f, hf, hft⟩ := List.mem_map.mp ht
    obtain ⟨txt, htxt⟩ := (hes1 f (List.mem_reverse.mp hf)).2.2
    exact ⟨txt, by rw [← hft, htxt]⟩
  have hlt := quickfix_lastTail_extras
    (List.map (fun f : Quickfix.Frame => f.tree) es1.reverse) txt1 this
  simpa using hlt

theorem quickfix_reduce_preserve :
    ∀ sym n stk stk2, Quickfix.Chain stk →
      Quickfix.isTokenSym sym = false →
      (sym = .sym_value → Quickfix.topSt stk = 12 ∧ n = 3) →
      (sym = .sym_lastValue → Quickfix.topSt stk = 10 ∧ n = 2) →
      Quickfix.reduceStep sym n stk = some stk2 →
      Quickfix.Chain stk2 ∧
        ∃ rest s, Quickfix.topSt rest ≤ 17 ∧
          Quickfix.goto_table (Quickfix.topSt rest) sym = some s ∧
          Quickfix.topSt stk2 = s := by
  intro sym n stk stk2 hch hnt hval hlast hred
  unfold Quickfix.reduceStep at hred
  split at hred
  · exact Option.noConfusion hred
  rename_i popped rest hpop
  split at hred
  · exact Option.noConfusion hred
  rename_i s hgoto
  simp only [Option.some.injEq] at hred
  have hsplit : stk = popped ++ rest := quickfix_popFrames_append _ _ _ _ hpop
  have hcr : Quickfix.Chain rest := by
    rcases quickfix_chain_append_right popped rest (hsplit ▸ hch) with hnil | hcr
    · rw [hnil] at hgoto
      rw [show Quickfix.topSt ([] : List Quickfix.Frame) = 0 from rfl,
        quickfix_goto_zero] at hgoto
      exact Option.noConfusion hgoto
    · exact hcr
  have htople : Quickfix.topSt rest ≤ 17 := quickfix_chain_topSt_le rest hcr
  have hgp := quickfix_goto_props (Quickfix.topSt rest) sym htople
  rw [hgoto] at hgp
  have hmem : ∀ f ∈ popped, f ∈ stk := by
    intro f hf
    rw [hsplit]
    exact List.mem_append_left rest hf
  have hgood := quickfix_chain_good stk hch
  have hnode : Quickfix.GoodTree
      (Quickfix.Tree.node sym ((popped.dropWhile (·.extra)).reverse.map (·.tree))) := by
    refine ⟨hnt, ?_, ?_, ?_⟩
    · refine quickfix_shapesList_of_all _ ?_
      intro t ht
      obtain ⟨f, hf, hft⟩ := List.mem_map.mp ht
      rw [← hft]
      exact (hgood f (hmem f ((List.dropWhile_sublist _).subset
        (List.mem_reverse.mp hf)))).1
    · intro hv
      obtain ⟨h12, h3⟩ := hval hv
      subst hv
      subst h3
      exact quickfix_pop12 stk popped rest hch h12 hpop
    · intro hv
      obtain ⟨h10, h2⟩ := hlast hv
      subst hv
      subst h2
      exact quickfix_pop10 stk popped rest hch h10 hpop
  have hchain2 : Quickfix.Chain
      ((⟨s, Quickfix.Tree.node sym
          ((popped.dropWhile (·.extra)).reverse.map (·.tree)), false⟩ : Quickfix.Frame)
        :: rest) :=
    Quickfix.Chain.push hcr hnode
      (by simp only [Quickfix.treeSym]
          rw [quickfix_edge_nonterminal _ _ hnt]
          exact hgoto)
  have hfull : Quickfix.Chain stk2 := by
    rw [← hred]
    refine quickfix_chain_push_extras _ _ s hchain2 rfl hgp.2.1 ?_
    intro f hf
    exact ((hgood f (hmem f ((List.takeWhile_sublist _).subset hf))).2
      (List.mem_takeWhile_imp hf))
  refine ⟨hfull, rest, s, htople, hgoto, ?_⟩
  rw [← hred]
  rcases hx : popped.takeWhile (·.extra) with _ | ⟨e, es⟩ <;>
    simp [hx, Quickfix.topSt]

theorem quickfix_shapesOK_sf_node :
    ∀ ch, Quickfix.shapesList ch = true →
      Quickfix.shapesOK (Quickfix.Tree.node .sym_source_file ch) = true := by
  intro ch h
  simp [Quickfix.shapesOK, Quickfix.shapesList, h]

theorem quickfix_accept_shapes :
    ∀ stk, Quickfix.Chain stk →
      Quickfix.shapesOK (Quickfix.acceptTree stk) = true := by
  intro stk hch
  have hgood := quickfix_chain_good stk hch
  have hdl : ∀ f ∈ stk.dropLast, f ∈ stk := fun f hf =>
    (List.dropLast_sublist stk).subset hf
  have hmap : ∀ (l : List Quickfix.Frame), (∀ f ∈ l, f ∈ stk) →
      Quickfix.shapesList (l.reverse.map (·.tree)) = true := by
    intro l hl
    refine quickfix_shapesList_of_all _ ?_
    intro t ht
    obtain ⟨f, hf, hft⟩ := List.mem_map.mp ht
    rw [← hft]
    exact (hgood f (hl f (List.mem_reverse.mp hf))).1
  have habove : Quickfix.shapesList
      (((stk.dropLast).takeWhile (·.extra)).reverse.map (·.tree)) = true :=
    hmap _ fun f hf => hdl f ((List.takeWhile_sublist _).subset hf)
  have hdw : ∀ f ∈ List.dropWhile (fun x : Quickfix.Frame => x.extra) stk.dropLast,
      f ∈ stk :=
    fun f hf => hdl f
      ((@List.dropWhile_sublist Quickfix.Frame stk.dropLast (fun x => x.extra)).subset hf)
  unfold Quickfix.acceptTree
  split
  · exact quickfix_shapesOK_sf_node _ habove
  · rename_i f0 below heq
    split
    · rename_i ch hrc
      refine quickfix_shapesOK_sf_node _ ?_
      rw [quickfix_shapesList_append, quickfix_shapesList_append]
      have hf0 : f0 ∈ stk := hdw f0 (by rw [heq]; simp)
      have hf0t : f0.tree = Quickfix.Tree.node .sym_source_file ch := by
        rcases hft : f0.tree with ⟨s, txt⟩ | ⟨s, ch2⟩
        · rw [hft] at hrc
          simp [Quickfix.rootChildren] at hrc
        · rw [hft] at hrc
          cases s <;> simp [Quickfix.rootChildren] at hrc
          rw [hrc]
      have hch2 : Quickfix.shapesList ch = true := by
        have := (hgood f0 hf0).1
        rw [hf0t] at this
        exact quickfix_shapesOK_node_children _ _ this
      have hbelow : Quickfix.shapesList (below.reverse.map (·.tree)) = true := by
        refine hmap _ ?_
        intro f hf
        exact hdw f (by rw [heq]; simp [hf])
      rw [hbelow, hch2, habove]
      rfl
    · refine quickfix_shapesOK_sf_node _ ?_
      rw [quickfix_shapesList_append]
      have hother : Quickfix.shapesList ((f0 :: below).reverse.map (·.tree)) = true := by
        refine hmap _ ?_
        intro f hf
        exact hdw f (by rw [heq]; exact hf)
      rw [hother, habove]
      rfl

theorem quickfix_handle_preserve :
    ∀ fuel stk tok, Quickfix.Chain stk → Quickfix.isTokenSym tok.sym = true →
      (∀ stk2, Quickfix.handle fuel stk tok = .cont stk2 → Quickfix.Chain stk2) ∧
      (∀ t, Quickfix.handle fuel stk tok = .done t → Quickfix.shapesOK t = true) := by
  intro fuel
  induction fuel with
  | zero =>
    intro stk tok hch htok
    exact ⟨fun stk2 h => by simp [Quickfix.handle] at h,
      fun t h => by simp [Quickfix.handle] at h⟩
  | succ n ih =>
    intro stk tok hch htok
    have htople := quickfix_chain_topSt_le stk hch
    have hap := quickfix_action_props (Quickfix.topSt stk) tok.sym htople
    rcases hA : Quickfix.parse_actions (Quickfix.topSt stk) tok.sym with _ | act
    · have hh : Quickfix.handle (n + 1) stk tok = .fail := by
        unfold Quickfix.handle
        rw [hA]
      exact ⟨fun stk2 h => by rw [hh] at h; exact Quickfix.Handle.noConfusion h,
        fun t h => by rw [hh] at h; exact Quickfix.Handle.noConfusion h⟩
    rw [hA] at hap
    cases act with
    | shift s =>
      have hh : Quickfix.handle (n + 1) stk tok =
          .cont (⟨s, .leaf tok.sym tok.txt, false⟩ :: stk) := by
        unfold Quickfix.handle
        rw [hA]
      refine ⟨?_, fun t h => by rw [hh] at h; exact Quickfix.Handle.noConfusion h⟩
      intro stk2 h
      rw [hh] at h
      cases h
      refine Quickfix.Chain.push hch ?_ ?_
      · exact htok
      · show Quickfix.edge _ _ = some s
        simp [Quickfix.edge, Quickfix.treeSym, hA]
    | shiftExtra =>
      have hsym : tok.sym = .anon_sym_LF := hap
      have hh : Quickfix.handle (n + 1) stk tok =
          .cont (⟨Quickfix.topSt stk, .leaf tok.sym tok.txt, true⟩ :: stk) := by
        unfold Quickfix.handle
        rw [hA]
      refine ⟨?_, fun t h => by rw [hh] at h; exact Quickfix.Handle.noConfusion h⟩
      intro stk2 h
      rw [hh] at h
      cases h
      rw [hsym] at hA ⊢
      exact Quickfix.Chain.pushE hch hA
    | accept =>
      have hh : Quickfix.handle (n + 1) stk tok = .done (Quickfix.acceptTree stk) := by
        unfold Quickfix.handle
        rw [hA]
      refine ⟨fun stk2 h => by rw [hh] at h; exact Quickfix.Handle.noConfusion h, ?_⟩
      intro t h
      rw [hh] at h
      cases h
      exact quickfix_accept_shapes stk hch
    | recover =>
      have hh : Quickfix.handle (n + 1) stk tok = .fail := by
        unfold Quickfix.handle
        rw [hA]
      exact ⟨fun stk2 h => by rw [hh] at h; exact Quickfix.Handle.noConfusion h,
        fun t h => by rw [hh] at h; exact Quickfix.Handle.noConfusion h⟩
    | reduce sym k =>
      have hh0 : Quickfix.handle (n + 1) stk tok =
          (match Quickfix.reduceStep sym k stk with
           | none => Quickfix.Handle.fail
           | some stk3 => Quickfix.handle n stk3 tok) := by
        conv_lhs => unfold Quickfix.handle
        rw [hA]
      rcases hr : Quickfix.reduceStep sym k stk with _ | stk3
      · have hh : Quickfix.handle (n + 1) stk tok = .fail := by rw [hh0, hr]
        exact ⟨fun stk2 h => by rw [hh] at h; exact Quickfix.Handle.noConfusion h,
          fun t h => by rw [hh] at h; exact Quickfix.Handle.noConfusion h⟩
      · have hh : Quickfix.handle (n + 1) stk tok = Quickfix.handle n stk3 tok := by
          rw [hh0, hr]
        obtain ⟨hchain3, -⟩ :=
          quickfix_reduce_preserve sym k stk stk3 hch hap.1 hap.2.1 hap.2.2 hr
        exact ⟨fun stk2 h => (ih stk3 tok hchain3 htok).1 stk2 (by rw [← hh]; exact h),
          fun t h => (ih stk3 tok hchain3 htok).2 t (by rw [← hh]; exact h)⟩
    | reduceShift sym k s2 =>
      obtain ⟨hnt, hnval, hnlast, hbt⟩ := hap
      have hh0 : Quickfix.handle (n + 1) stk tok =
          (match Quickfix.reduceStep sym k stk with
           | none => Quickfix.Handle.fail
           | some stk3 =>
             Quickfix.Handle.cont (⟨s2, .leaf tok.sym tok.txt, false⟩ :: stk3)) := by
        conv_lhs => unfold Quickfix.handle
        rw [hA]
      rcases hr : Quickfix.reduceStep sym k stk with _ | stk3
      · have hh : Quickfix.handle (n + 1) stk tok = .fail := by rw [hh0, hr]
        exact ⟨fun stk2 h => by rw [hh] at h; exact Quickfix.Handle.noConfusion h,
          fun t h => by rw [hh] at h; exact Quickfix.Handle.noConfusion h⟩
      · have hh : Quickfix.handle (n + 1) stk tok =
            .cont (⟨s2, .leaf tok.sym tok.txt, false⟩ :: stk3) := by
          rw [hh0, hr]
        refine ⟨?_, fun t h => by rw [hh] at h; exact Quickfix.Handle.noConfusion h⟩
        intro stk2 h
        rw [hh] at h
        cases h
        obtain ⟨hchain3, rest, s, hle, hgoto, htops⟩ :=
          quickfix_reduce_preserve sym k stk stk3 hch hnt
            (fun hv => (hnval hv).elim) (fun hv => (hnlast hv).elim) hr
        have hgp := quickfix_goto_props (Quickfix.topSt rest) sym hle
        rw [hgoto] at hgp
        refine Quickfix.Chain.push hchain3 htok ?_
        show Quickfix.edge _ _ = some s2
        rw [htops, show Quickfix.treeSym (Quickfix.Tree.leaf tok.sym tok.txt) =
          tok.sym from rfl]
        rcases hbt with ⟨hb, ht13, hsy⟩ | ⟨hb, ht15, hsy⟩
        · rw [hb, ht13]
          exact hgp.2.2.1 hsy
        · rw [hb, ht15]
          exact hgp.2.2.2 hsy

theorem quickfix_word_res_inv :
    ∀ (acc rst0 : List Nat) (tk : Quickfix.Tok) (rst : List Nat),
      (some (⟨Quickfix.Sym.sym_word, acc⟩, rst0) : Option (Quickfix.Tok × List Nat)) =
        some (tk, rst) →
      Quickfix.isTokenSym tk.sym = true := by
  intro acc rst0 tk rst h
  simp only [Option.some.injEq, Prod.mk.injEq] at h
  rw [← h.1]
  rfl

theorem quickfix_lex_token :
    ∀ st input acc res,
      (∀ (tk : Quickfix.Tok) (rst : List Nat), res = some (tk, rst) →
        Quickfix.isTokenSym tk.sym = true) →
      ∀ tk rst, Quickfix.ts_lex_go st input acc res = some (tk, rst) →
        Quickfix.isTokenSym tk.sym = true := by
  intro st input acc res
  induction st, input, acc, res using Quickfix.ts_lex_go.induct <;>
    intro hres tk rst h <;>
    simp only [Quickfix.ts_lex_go] at h <;>
    first
      | exact hres tk rst h
      | (obtain ⟨h1, h2⟩ := by
           simpa only [Option.some.injEq, Prod.mk.injEq] using h
         rw [← h1]
         rfl)
      | (split at h <;>
          first
            | exact hres tk rst h
            | (obtain ⟨h1, h2⟩ := by
                 simpa only [Option.some.injEq, Prod.mk.injEq] using h
               rw [← h1]
               rfl)
            | solve_by_elim [quickfix_word_res_inv]
            | (rw [← h.1]; rfl)
            | (simp_all; done)
            | (simp_all
               rw [← h.1]
               rfl))

theorem quickfix_run_preserve :
    ∀ fuel stk input t, Quickfix.Chain stk →
      Quickfix.run fuel stk input = .ok t → Quickfix.shapesOK t = true := by
  intro fuel
  induction fuel with
  | zero =>
    intro stk input t hch h
    exact Quickfix.RunResult.noConfusion h
  | succ n ih =>
    intro stk input t hch h
    unfold Quickfix.run at h
    split at h
    · exact Quickfix.RunResult.noConfusion h
    · rename_i tok rest hlex
      have htok : Quickfix.isTokenSym tok.sym = true :=
        quickfix_lex_token (Quickfix.lex_modes (Quickfix.topSt stk)) input [] none
          (fun tk rst hh => Option.noConfusion hh) tok rest hlex
      split at h
      · exact Quickfix.RunResult.noConfusion h
      · rename_i t2 hdone
        have ht : Quickfix.shapesOK t2 = true :=
          (quickfix_handle_preserve _ stk tok hch htok).2 t2 hdone
        cases h
        exact ht
      · rename_i stk2 hcont
        exact ih stk2 rest t
          ((quickfix_handle_preserve _ stk tok hch htok).1 stk2 hcont) h

/-- C10 (amended): for every input the quickfix tables accept, every
`value` node of the resulting tree consists of a `├` token, any
interleaved newline extras, one word, and the terminating newline as its
last child, and every `lastValue` node consists of a `└` token, any
interleaved newline extras, and one word — never the newline that ends
the final row (`shapesOK` checks exactly these shapes on every `value`
and `lastValue` node of the tree). -/
theorem C10_amended :
    ∀ fuel input t, Quickfix.run fuel Quickfix.stack0 input = .ok t →
      Quickfix.shapesOK t = true :=
  fun fuel input t h =>
    quickfix_run_preserve fuel Quickfix.stack0 input t Quickfix.Chain.base h

/-- C10 witness: the amended claim applied to the accepted input
`"■┬h\n├a\n└b\n"` and its concrete tree. -/
theorem C10_amended_witness :
    Quickfix.run 60 Quickfix.stack0 (chars "■┬h\n├a\n└b\n") =
      .ok (.node .sym_source_file
        [.node .sym_section
          [.node .sym_header
            [.leaf .anon_sym_ (chars "■┬"), .leaf .sym_word (chars "h")],
           .leaf .anon_sym_LF [10],
           .node .sym_values
            [.node .sym_value
              [.leaf .anon_sym_2 (chars "├"), .leaf .sym_word (chars "a"),
               .leaf .anon_sym_LF [10]],
             .node .sym_lastValue
              [.leaf .anon_sym_3 (chars "└"), .leaf .sym_word (chars "b")]]],
         .leaf .anon_sym_LF [10]]) ∧
    Quickfix.shapesOK
      (.node .sym_source_file
        [.node .sym_section
          [.node .sym_header
            [.leaf .anon_sym_ (chars "■┬"), .leaf .sym_word (chars "h")],
           .leaf .anon_sym_LF [10],
           .node .sym_values
            [.node .sym_value
              [.leaf .anon_sym_2 (chars "├"), .leaf .sym_word (chars "a"),
               .leaf .anon_sym_LF [10]],
             .node .sym_lastValue
              [.leaf .anon_sym_3 (chars "└"), .leaf .sym_word (chars "b")]]],
         .leaf .anon_sym_LF [10]]) = true :=
  ⟨rfl, C10_amended 60 (chars "■┬h\n├a\n└b\n") _ rfl⟩
